import Mathlib

/-!
Verification of `examples/kfac_pre.py` (K-FAC factor estimation prototype).

Arrays are shallowly embedded as lists of rows over an ordered field
(exact arithmetic stands in for floating point).  The numeric primitives
supplied by the surrounding `autograd.numpy` library (`np.exp`, `np.log`,
`np.tanh`) are passed as explicit function parameters so that the whole
pipeline stays executable and can also be run over dual numbers to model
forward-mode differentiation.
-/

/-- A vector: one row of a numpy array. -/
abbrev Vec (β : Type) := List β

/-- A matrix: a numpy 2-d array as a list of rows. -/
abbrev Mat (β : Type) := List (List β)

section CoreOps

variable {β : Type} [Zero β] [One β] [Add β] [Mul β] [Sub β]

/-- Modelled from the spec: `np.eye(n)`, the n×n identity matrix
(the numeric library is external to `src/`). -/
def np_eye (n : Nat) : Mat β :=
  (List.range n).map (fun i => (List.range n).map (fun j => if i = j then (1 : β) else 0))

/-- Modelled from the spec: `np.dot(A, W)` for 2-d arrays, the ordinary
matrix product, row by row. -/
def np_dot (A W : Mat β) : Mat β :=
  A.map (fun row =>
    (List.range (W.headD []).length).map (fun j =>
      ((row.zip W).map (fun p => p.1 * p.2.getD j 0)).sum))

/-- Modelled from the spec: numpy broadcasting of a bias row vector `b`
over every row of `M` (`M + b`). -/
def addRowBroadcast (M : Mat β) (b : Vec β) : Mat β :=
  M.map (fun r => List.zipWith (· + ·) r b)

/-- Modelled from the spec: elementwise sum of two same-shaped arrays. -/
def matAdd (A B : Mat β) : Mat β :=
  List.zipWith (List.zipWith (· + ·)) A B

/-- Elementwise application of a scalar function to an array. -/
def matMap (f : β → β) (M : Mat β) : Mat β :=
  M.map (fun r => r.map f)

/-- Modelled from the spec: elementwise (Hadamard) product `A * B`. -/
def matMulElem (A B : Mat β) : Mat β :=
  List.zipWith (List.zipWith (· * ·)) A B

/-- Modelled from the spec: `np.sum` over a whole 2-d array. -/
def matSumAll (M : Mat β) : β :=
  (M.map List.sum).sum

/-- Helper for `np_cumsum`: running sums starting from `acc`. -/
def cumsumFrom (acc : β) : Vec β → Vec β
  | [] => []
  | x :: xs => (acc + x) :: cumsumFrom (acc + x) xs

/-- Modelled from the spec: `np.cumsum` along one row. -/
def np_cumsum (r : Vec β) : Vec β :=
  cumsumFrom 0 r

end CoreOps

section Estimation

variable {α : Type} [LinearOrderedField α]

/-- `append_homog_coord = lambda x: np.hstack((x, np.ones((x.shape[0], 1))))`:
append a constant-1 column to every row. -/
def append_homog_coord (x : Mat α) : Mat α :=
  x.map (fun r => r ++ [(1 : α)])

/-- `sumsq = lambda samples: np.dot(samples.T, samples)`: the matrix of
summed pairwise products of columns, entry `(j,k) = Σ_rows row[j]*row[k]`. -/
def sumsq (samples : Mat α) : Mat α :=
  let D := (samples.headD []).length
  (List.range D).map (fun j =>
    (List.range D).map (fun k =>
      (samples.map (fun r => r.getD j 0 * r.getD k 0)).sum))

/-- Python's `sum` over a list of same-shaped matrices (starting from the
scalar `0`, which broadcasts away once a first matrix is added; an empty
list leaves the degenerate scalar, embedded as the empty matrix). -/
def matSumList (l : List (Mat α)) : Mat α :=
  match l with
  | [] => []
  | h :: t => t.foldl matAdd h

/-- Elementwise division of a matrix by a scalar. -/
def matDivScalar (M : Mat α) (c : α) : Mat α :=
  M.map (fun r => r.map (fun x => x / c))

/-- Elementwise multiplication of a matrix by a scalar. -/
def matScale (c : α) (M : Mat α) : Mat α :=
  M.map (fun r => r.map (fun x => c * x))

/-- `num_samples = sum(samples.shape[0] for samples in all_samples[0])`:
the total row count over the FIRST layer's accumulated batches. -/
def num_samples_of {α : Type} (all_samples : List (List (Mat α))) : Nat :=
  ((all_samples.headD []).map List.length).sum

/-- `estimate_block_kron_factors(all_samples, append_homog=False)`.
Per layer: the sum of `sumsq(homog(batch))` over that layer's batches,
divided by `num_samples` (taken from the first layer's batches).  The
division is unguarded in the source; a zero `num_samples` raises
`ZeroDivisionError`, embedded as `none`. -/
def estimate_block_kron_factors (all_samples : List (List (Mat α)))
    (append_homog : Bool := false) : Option (List (Mat α)) :=
  let num := num_samples_of all_samples
  if num = 0 then none
  else
    let homog := if append_homog then append_homog_coord else id
    some (all_samples.map (fun layer_samples =>
      matDivScalar (matSumList (layer_samples.map (fun s => sumsq (homog s)))) (num : α)))

/-- `update = lambda old, new: eps*old + (1.-eps)*new`, the
exponential-moving-average blend inside `update_factor_estimates`. -/
def ema_update (eps : α) (old new : Mat α) : Mat α :=
  matAdd (matScale eps old) (matScale (1 - eps) new)

/-- `update_factor_estimates(old_estimates, samples, eps=0.05)`:
re-estimate both factor families from the accumulated samples (with the
homogeneous coordinate only for the activation factors) and blend them
layerwise into the old estimates.  Returns the blended pair; the
`ZeroDivisionError` of the estimation step propagates as `none`. -/
def update_factor_estimates (old_estimates : List (Mat α) × List (Mat α))
    (samples : List (List (Mat α)) × List (List (Mat α)))
    (eps : α := 1 / 20) : Option (List (Mat α) × List (Mat α)) :=
  match estimate_block_kron_factors samples.1 true,
        estimate_block_kron_factors samples.2 false with
  | some Ahats, some Ghats =>
      some (List.zipWith (ema_update eps) old_estimates.1 Ahats,
            List.zipWith (ema_update eps) old_estimates.2 Ghats)
  | _, _ => none

/-- `init_factor_estimates(layer_sizes)`: identity matrices sized
`layer_sizes[:-1] + 1` for the activation factors and `layer_sizes[1:]`
for the gradient factors. -/
def init_factor_estimates (layer_sizes : List Nat) : List (Mat α) × List (Mat α) :=
  (layer_sizes.dropLast.map (fun n => np_eye (n + 1)),
   (layer_sizes.drop 1).map np_eye)

/-- `init_sample_lists(layer_sizes)`: a pair of per-layer empty sample
lists, one entry per layer boundary (`layer_sizes[:-1]`). -/
def init_sample_lists (layer_sizes : List Nat) :
    List (List (Mat α)) × List (List (Mat α)) :=
  (layer_sizes.dropLast.map (fun _ => []), layer_sizes.dropLast.map (fun _ => []))

end Estimation

section Network

variable {β : Type} [Zero β] [One β] [Add β] [Mul β] [Sub β]

/-- `sample_discrete_from_log(logprobs)`: per row, exponentiate, take the
cumulative sums, count how many cumulative values the row's uniform draw
exceeds (`np.sum(npr.rand(N,1) > cumvals, axis=1)`), and pick that row of
`np.eye(D)`.  The stream of uniform draws `npr.rand(N,1)` is passed
explicitly as `us`, one draw per row; `exp` is the library's `np.exp` and
`lt c u` decides `u > c`. -/
def sample_discrete_from_log (exp : β → β) (lt : β → β → Bool)
    (logprobs : Mat β) (us : Vec β) : Mat β :=
  let D := (logprobs.headD []).length
  (logprobs.zip us).map (fun p =>
    let probs := p.1.map exp
    let cumvals := np_cumsum probs
    let index := (cumvals.filter (fun c => lt c p.2)).length
    (np_eye (β := β) D).getD index [])

/-- Modelled from the spec: `autograd.scipy.misc.logsumexp(s, axis=1)`
(not under `src/`), the logarithm of the sum of exponentials of one row;
the numerically stable max-shifted form coincides with this in exact
arithmetic. -/
def logsumexp (exp log : β → β) (r : Vec β) : β :=
  log (r.map exp).sum

/-- One layer's pre-activation `s = np.dot(a, W) + b + extra_bias`. -/
def layer_preactivation (a W : Mat β) (b : Vec β) (eb : Mat β) : Mat β :=
  matAdd (addRowBroadcast (np_dot a W) b) eb

/-- The layer loop of `neural_net_predict_and_activations`: starting from
the current activations `a`, fold over `zip(params, extra_biases)`,
computing `s = dot(a, W) + b + extra_bias` and appending `tanh(s)`;
returns the list of appended activations together with the last computed
`s` (which is unbound — a Python `NameError` — when the zip is empty). -/
def nn_go (tanh : β → β) (a : Mat β) :
    List ((Mat β × Vec β) × Mat β) → List (Mat β) × Option (Mat β)
  | [] => ([], none)
  | ((W, b), eb) :: rest =>
    let s := layer_preactivation a W b eb
    let a2 := matMap tanh s
    match nn_go tanh a2 rest with
    | (acts, some s2) => (a2 :: acts, some s2)
    | (acts, none) => (a2 :: acts, some s)

/-- `neural_net_predict_and_activations(extra_biases, params, inputs)`:
run the layer loop, then normalize the last pre-activation `s` row-wise by
`s - logsumexp(s, axis=1, keepdims=True)`, and return the log-probabilities
together with `all_activations[:-1]` (where `all_activations` starts as
`[inputs]`).  `none` embeds the `NameError` on an empty layer zip. -/
def neural_net_predict_and_activations (exp log tanh : β → β)
    (extra_biases : List (Mat β)) (params : List (Mat β × Vec β))
    (inputs : Mat β) : Option (Mat β × List (Mat β)) :=
  match nn_go tanh inputs (params.zip extra_biases) with
  | (acts, some s) =>
      some (s.map (fun r => r.map (fun x => x - logsumexp exp log r)),
            (inputs :: acts).dropLast)
  | (_, none) => none

/-- `model_predictive_log_likelihood(extra_biases, params, inputs)`:
sample one-hot targets from the model's own predictive distribution
(through `getval`, the stop-gradient read, passed here as `gv`) and return
`np.sum(logprobs * model_sampled_targets)` with the captured activations. -/
def model_predictive_log_likelihood (exp log tanh : β → β)
    (lt : β → β → Bool) (gv : β → β)
    (extra_biases : List (Mat β)) (params : List (Mat β × Vec β))
    (inputs : Mat β) (us : Vec β) : Option (β × List (Mat β)) :=
  match neural_net_predict_and_activations exp log tanh extra_biases params inputs with
  | some (logprobs, activations) =>
      let model_sampled_targets :=
        sample_discrete_from_log exp lt (matMap gv logprobs) us
      some (matSumAll (matMulElem logprobs model_sampled_targets), activations)
  | none => none

end Network

section Helpers

/-- Entry `(j,k)` of a matrix, defaulting to `0` out of range. -/
def entry {β : Type} [Zero β] (M : Mat β) (j k : Nat) : β :=
  (M.getD j []).getD k 0

/-- Two matrices have the same shape: rows align and row lengths agree. -/
@[reducible] def sameShape {β : Type} (A B : Mat β) : Prop :=
  A.map List.length = B.map List.length

variable {γ δ : Type}

theorem getD_map_lt (f : γ → δ) (d : δ) (d' : γ) :
    ∀ (l : List γ) (i : Nat), i < l.length → (l.map f).getD i d = f (l.getD i d') := by
  intro l
  induction l with
  | nil => intro i h; simp at h
  | cons x xs ih =>
    intro i h
    cases i with
    | zero => simp [List.getD]
    | succ n =>
      simp only [List.map_cons, List.getD_cons_succ]
      exact ih n (by simpa using Nat.lt_of_succ_lt_succ h)

theorem getD_zipWith_lt (f : γ → γ → γ) (d : γ) :
    ∀ (l1 l2 : List γ) (i : Nat), i < l1.length → i < l2.length →
      (List.zipWith f l1 l2).getD i d = f (l1.getD i d) (l2.getD i d) := by
  intro l1
  induction l1 with
  | nil => intro l2 i h; simp at h
  | cons x xs ih =>
    intro l2 i h1 h2
    cases l2 with
    | nil => simp at h2
    | cons y ys =>
      cases i with
      | zero => simp [List.getD]
      | succ n =>
        simp only [List.zipWith_cons_cons, List.getD_cons_succ]
        exact ih ys n (Nat.lt_of_succ_lt_succ h1) (Nat.lt_of_succ_lt_succ h2)

theorem getD_range_map (f : Nat → γ) (d : γ) :
    ∀ (n i : Nat), i < n → ((List.range n).map f).getD i d = f i := by
  intro n i h
  rw [List.getD_eq_getElem?_getD]
  simp [List.getElem?_map, List.getElem?_range, h]

end Helpers

section EntryLemmas

variable {α : Type} [LinearOrderedField α]

theorem entry_matAdd (A B : Mat α) (j k : Nat)
    (hjA : j < A.length) (hjB : j < B.length)
    (hkA : k < (A.getD j []).length) (hkB : k < (B.getD j []).length) :
    entry (matAdd A B) j k = entry A j k + entry B j k := by
  unfold entry matAdd
  rw [getD_zipWith_lt _ _ A B j hjA hjB]
  rw [getD_zipWith_lt _ _ _ _ k hkA hkB]

theorem entry_matScale (c : α) (A : Mat α) (j k : Nat)
    (hj : j < A.length) (hk : k < (A.getD j []).length) :
    entry (matScale c A) j k = c * entry A j k := by
  unfold entry matScale
  rw [getD_map_lt _ _ [] A j hj, getD_map_lt _ _ 0 _ k hk]

theorem entry_matDivScalar (A : Mat α) (c : α) (j k : Nat)
    (hj : j < A.length) (hk : k < (A.getD j []).length) :
    entry (matDivScalar A c) j k = entry A j k / c := by
  unfold entry matDivScalar
  rw [getD_map_lt _ _ [] A j hj, getD_map_lt _ _ 0 _ k hk]

theorem entry_sumsq (s : Mat α) (j k : Nat)
    (hj : j < (s.headD []).length) (hk : k < (s.headD []).length) :
    entry (sumsq s) j k = (s.map (fun r => r.getD j 0 * r.getD k 0)).sum := by
  unfold entry sumsq
  rw [getD_range_map _ _ _ j hj, getD_range_map _ _ _ k hk]

end EntryLemmas

section BlendLemmas

variable {α : Type} [LinearOrderedField α]

theorem ema_row_one : ∀ (r s : List α), r.length = s.length →
    List.zipWith (· + ·) (r.map (fun x => (1 : α) * x))
      (s.map (fun x => (1 - 1 : α) * x)) = r := by
  intro r
  induction r with
  | nil => intro s _; simp
  | cons x xs ih =>
    intro s h
    cases s with
    | nil => simp at h
    | cons y ys =>
      simp only [List.map_cons, List.zipWith_cons_cons]
      rw [ih ys (by simpa using h)]
      norm_num

theorem ema_row_zero : ∀ (r s : List α), r.length = s.length →
    List.zipWith (· + ·) (r.map (fun x => (0 : α) * x))
      (s.map (fun x => (1 - 0 : α) * x)) = s := by
  intro r
  induction r with
  | nil => intro s h; cases s with
    | nil => simp
    | cons y ys => simp at h
  | cons x xs ih =>
    intro s h
    cases s with
    | nil => simp at h
    | cons y ys =>
      simp only [List.map_cons, List.zipWith_cons_cons]
      rw [ih ys (by simpa using h)]
      norm_num

theorem ema_update_one (old new : Mat α) (h : sameShape old new) :
    ema_update 1 old new = old := by
  unfold ema_update matAdd matScale
  unfold sameShape at h
  induction old generalizing new with
  | nil =>
    cases new with
    | nil => rfl
    | cons s t => simp at h
  | cons r rt ih =>
    cases new with
    | nil => simp at h
    | cons s st =>
      simp only [List.map_cons, List.cons.injEq] at h
      simp only [List.map_cons, List.zipWith_cons_cons, List.cons.injEq]
      exact ⟨ema_row_one r s h.1, ih st h.2⟩

theorem ema_update_zero (old new : Mat α) (h : sameShape old new) :
    ema_update 0 old new = new := by
  unfold ema_update matAdd matScale
  unfold sameShape at h
  induction old generalizing new with
  | nil =>
    cases new with
    | nil => rfl
    | cons s t => simp at h
  | cons r rt ih =>
    cases new with
    | nil => simp at h
    | cons s st =>
      simp only [List.map_cons, List.cons.injEq] at h
      simp only [List.map_cons, List.zipWith_cons_cons, List.cons.injEq]
      exact ⟨ema_row_zero r s h.1, ih st h.2⟩

theorem entry_ema_update (eps : α) (old new : Mat α) (j k : Nat)
    (hjo : j < old.length) (hjn : j < new.length)
    (hko : k < (old.getD j []).length) (hkn : k < (new.getD j []).length) :
    entry (ema_update eps old new) j k =
      eps * entry old j k + (1 - eps) * entry new j k := by
  unfold ema_update
  rw [entry_matAdd (matScale eps old) (matScale (1 - eps) new) j k
    (by simpa [matScale] using hjo) (by simpa [matScale] using hjn)
    (by rw [matScale, getD_map_lt _ _ [] old j hjo]; simpa using hko)
    (by rw [matScale, getD_map_lt _ _ [] new j hjn]; simpa using hkn)]
  rw [entry_matScale eps old j k hjo hko, entry_matScale (1 - eps) new j k hjn hkn]

theorem update_factor_estimates_eq (As Gs : List (Mat α))
    (a g : List (List (Mat α))) (eps : α) (Ahats Ghats : List (Mat α))
    (h1 : estimate_block_kron_factors a true = some Ahats)
    (h2 : estimate_block_kron_factors g false = some Ghats) :
    update_factor_estimates (As, Gs) (a, g) eps =
      some (List.zipWith (ema_update eps) As Ahats,
            List.zipWith (ema_update eps) Gs Ghats) := by
  unfold update_factor_estimates
  rw [h1, h2]

end BlendLemmas

section SquareLemmas

/-- An `n × n` matrix: `n` rows, each of length `n`. -/
def IsSquareMat {γ : Type} (n : Nat) (M : Mat γ) : Prop :=
  M.length = n ∧ ∀ r ∈ M, r.length = n

theorem getD_mem_of_lt {γ : Type} (l : List γ) (i : Nat) (d : γ)
    (h : i < l.length) : l.getD i d ∈ l := by
  rw [List.getD_eq_getElem?_getD, List.getElem?_eq_getElem h]
  exact List.getElem_mem h

variable {α : Type} [LinearOrderedField α]

theorem matAdd_isSquare {n : Nat} {A B : Mat α}
    (hA : IsSquareMat n A) (hB : IsSquareMat n B) :
    IsSquareMat n (matAdd A B) := by
  constructor
  · simp [matAdd, List.length_zipWith, hA.1, hB.1]
  · intro r hr
    simp only [matAdd] at hr
    obtain ⟨i, hi, rfl⟩ := List.mem_iff_getElem.mp hr
    have hiA : i < A.length := by
      simp only [List.length_zipWith] at hi; omega
    have hiB : i < B.length := by
      simp only [List.length_zipWith] at hi; omega
    rw [List.getElem_zipWith, List.length_zipWith,
      hA.2 _ (List.getElem_mem hiA), hB.2 _ (List.getElem_mem hiB)]
    exact Nat.min_self n

theorem foldl_matAdd_square {n : Nat} :
    ∀ (t : List (Mat α)) (h : Mat α), IsSquareMat n h →
      (∀ M ∈ t, IsSquareMat n M) → IsSquareMat n (t.foldl matAdd h) := by
  intro t
  induction t with
  | nil => intro h hh _; exact hh
  | cons M t ih =>
    intro h hh hmem
    exact ih (matAdd h M) (matAdd_isSquare hh (hmem M (List.mem_cons_self M t)))
      (fun N hN => hmem N (List.mem_cons_of_mem M hN))

theorem entry_matAdd_square {n : Nat} {A B : Mat α} (j k : Nat)
    (hA : IsSquareMat n A) (hB : IsSquareMat n B) (hj : j < n) (hk : k < n) :
    entry (matAdd A B) j k = entry A j k + entry B j k := by
  have hjA : j < A.length := hA.1 ▸ hj
  have hjB : j < B.length := hB.1 ▸ hj
  exact entry_matAdd A B j k hjA hjB
    (by rw [hA.2 _ (getD_mem_of_lt A j [] hjA)]; exact hk)
    (by rw [hB.2 _ (getD_mem_of_lt B j [] hjB)]; exact hk)

theorem foldl_matAdd_entry {n : Nat} (j k : Nat) (hj : j < n) (hk : k < n) :
    ∀ (t : List (Mat α)) (h : Mat α), IsSquareMat n h →
      (∀ M ∈ t, IsSquareMat n M) →
      entry (t.foldl matAdd h) j k =
        entry h j k + (t.map (fun M => entry M j k)).sum := by
  intro t
  induction t with
  | nil => intro h _ _; simp
  | cons M t ih =>
    intro h hh hmem
    have hM := hmem M (List.mem_cons_self M t)
    rw [List.foldl_cons,
      ih (matAdd h M) (matAdd_isSquare hh hM)
        (fun N hN => hmem N (List.mem_cons_of_mem M hN)),
      entry_matAdd_square j k hh hM hj hk]
    simp [add_assoc]

theorem matSumList_isSquare {n : Nat} {L : List (Mat α)} (hne : L ≠ [])
    (hL : ∀ M ∈ L, IsSquareMat n M) : IsSquareMat n (matSumList L) := by
  cases L with
  | nil => exact absurd rfl hne
  | cons h t =>
    exact foldl_matAdd_square t h (hL h (List.mem_cons_self h t))
      (fun N hN => hL N (List.mem_cons_of_mem h hN))

theorem matSumList_entry {n : Nat} (j k : Nat) (hj : j < n) (hk : k < n)
    {L : List (Mat α)} (hne : L ≠ []) (hL : ∀ M ∈ L, IsSquareMat n M) :
    entry (matSumList L) j k = (L.map (fun M => entry M j k)).sum := by
  cases L with
  | nil => exact absurd rfl hne
  | cons h t =>
    rw [matSumList,
      foldl_matAdd_entry j k hj hk t h (hL h (List.mem_cons_self h t))
        (fun N hN => hL N (List.mem_cons_of_mem h hN))]
    simp

theorem sumsq_isSquare (s : Mat α) (n : Nat) (h : (s.headD []).length = n) :
    IsSquareMat n (sumsq s) := by
  constructor
  · simp only [sumsq, List.length_map, List.length_range]; exact h
  · intro r hr
    simp only [sumsq] at hr
    obtain ⟨j, hj, rfl⟩ := List.mem_map.mp hr
    simp only [List.length_map, List.length_range]; exact h

end SquareLemmas

section ZeroSampleLemmas

variable {α : Type} [LinearOrderedField α]

theorem estimate_none_of_num_zero (as : List (List (Mat α))) (ah : Bool)
    (h : num_samples_of as = 0) : estimate_block_kron_factors as ah = none := by
  simp [estimate_block_kron_factors, h]

omit [LinearOrderedField α] in
theorem num_samples_init_fst (ls : List Nat) :
    num_samples_of ((init_sample_lists (α := α) ls).1) = 0 := by
  unfold init_sample_lists num_samples_of
  cases h : ls.dropLast with
  | nil => simp
  | cons n t => simp

omit [LinearOrderedField α] in
theorem sum_lengths_ne_zero_iff {γ : Type} (l : List (List γ)) :
    (l.map List.length).sum ≠ 0 ↔ ∃ b ∈ l, 0 < b.length := by
  induction l with
  | nil => simp
  | cons h t ih =>
    simp only [List.map_cons, List.sum_cons, Ne, Nat.add_eq_zero, not_and_or]
    rw [← Ne, ← Ne, ih]
    simp [Nat.pos_iff_ne_zero]

end ZeroSampleLemmas

/-- C1: `update_factor_estimates` blends each layer's matrix for each
factor type as `eps * old + (1 - eps) * fresh`, with default `eps = 0.05`;
entrywise the blend is exactly that affine combination, and for same-shaped
matrices the blend with `eps = 1` returns the old matrix exactly while the
blend with `eps = 0` returns the fresh matrix exactly. -/
theorem C1_exponential_update_rule :
    (∀ (As Gs : List (Mat ℚ)) (a g : List (List (Mat ℚ)))
        (eps : ℚ) (Ahats Ghats : List (Mat ℚ)),
        estimate_block_kron_factors a true = some Ahats →
        estimate_block_kron_factors g false = some Ghats →
        update_factor_estimates (As, Gs) (a, g) eps =
          some (List.zipWith (ema_update eps) As Ahats,
                List.zipWith (ema_update eps) Gs Ghats)) ∧
    (∀ (old : List (Mat ℚ) × List (Mat ℚ))
        (samples : List (List (Mat ℚ)) × List (List (Mat ℚ))),
        update_factor_estimates old samples =
          update_factor_estimates old samples (0.05 : ℚ)) ∧
    (∀ (eps : ℚ) (old new : Mat ℚ) (j k : Nat),
        j < old.length → j < new.length →
        k < (old.getD j []).length → k < (new.getD j []).length →
        entry (ema_update eps old new) j k =
          eps * entry old j k + (1 - eps) * entry new j k) ∧
    (∀ old new : Mat ℚ, sameShape old new → ema_update 1 old new = old) ∧
    (∀ old new : Mat ℚ, sameShape old new → ema_update 0 old new = new) := by
  refine ⟨fun As Gs a g eps Ahats Ghats h1 h2 =>
      update_factor_estimates_eq As Gs a g eps Ahats Ghats h1 h2,
    fun old samples => ?_,
    fun eps old new j k hjo hjn hko hkn =>
      entry_ema_update eps old new j k hjo hjn hko hkn,
    fun old new h => ema_update_one old new h,
    fun old new h => ema_update_zero old new h⟩
  have h : (0.05 : ℚ) = 1 / 20 := by norm_num
  rw [h]

/-- Closed witness for C1 at concrete factor estimates and samples. -/
theorem C1_exponential_update_rule_witness :
    (update_factor_estimates (α := ℚ) ([[[2]]], [[[4]]]) ([[[[1]]]], [[[[3]]]]) (1 / 2) =
      some (List.zipWith (ema_update (1 / 2 : ℚ)) [[[2]]] [[[1, 1], [1, 1]]],
            List.zipWith (ema_update (1 / 2 : ℚ)) [[[4]]] [[[9]]])) ∧
    (update_factor_estimates (α := ℚ) ([[[2]]], [[[4]]]) ([[[[1]]]], [[[[3]]]]) =
      update_factor_estimates ([[[2]]], [[[4]]]) ([[[[1]]]], [[[[3]]]]) (0.05 : ℚ)) ∧
    (entry (ema_update (1 / 3 : ℚ) [[2]] [[5]]) 0 0 =
      (1 / 3 : ℚ) * entry [[2]] 0 0 + (1 - 1 / 3) * entry [[5]] 0 0) ∧
    (ema_update (1 : ℚ) [[2]] [[5]] = [[2]]) ∧
    (ema_update (0 : ℚ) [[2]] [[5]] = [[5]]) :=
  ⟨C1_exponential_update_rule.1 [[[2]]] [[[4]]] [[[[1]]]] [[[[3]]]] (1 / 2)
      [[[1, 1], [1, 1]]] [[[9]]]
      (by simp [estimate_block_kron_factors, num_samples_of, matDivScalar, matSumList,
        sumsq, append_homog_coord, List.getD, List.range_succ])
      (by simp [estimate_block_kron_factors, num_samples_of, matDivScalar, matSumList,
        sumsq, append_homog_coord, List.getD, List.range_succ]; norm_num),
   C1_exponential_update_rule.2.1 ([[[2]]], [[[4]]]) ([[[[1]]]], [[[[3]]]]),
   C1_exponential_update_rule.2.2.1 (1 / 3) [[2]] [[5]] 0 0
      (by decide) (by decide) (by decide) (by decide),
   C1_exponential_update_rule.2.2.2.1 [[2]] [[5]] (by decide),
   C1_exponential_update_rule.2.2.2.2 [[2]] [[5]] (by decide)⟩

/-- C9 counterexample: `update_factor_estimates` does not mutate its
argument; at a concrete input (whose old factors already have the shapes of
the fresh estimates: a 2×2 zero A-factor against the 2×2 homogenized sample
second moment, and a 1×1 zero G-factor against the 1×1 gradient second
moment) it returns a fresh pair of blended estimates different from the old
estimates passed in (which the pure function leaves untouched), so the
update lives only in the returned value. -/
theorem C9_counterexample_no_mutation :
    update_factor_estimates (α := ℚ) ([[[0, 0], [0, 0]]], [[[0]]])
        ([[[[1]]]], [[[[1]]]]) (1 / 2) =
      some ([[[1 / 2, 1 / 2], [1 / 2, 1 / 2]]], [[[1 / 2]]]) ∧
    (([[[1 / 2, 1 / 2], [1 / 2, 1 / 2]]], [[[1 / 2]]]) :
        List (Mat ℚ) × List (Mat ℚ)) ≠ ([[[0, 0], [0, 0]]], [[[0]]]) := by
  constructor
  · simp [update_factor_estimates, estimate_block_kron_factors, num_samples_of,
      matDivScalar, matSumList, sumsq, append_homog_coord, List.getD, List.range_succ,
      ema_update, matAdd, matScale]
    norm_num
  · simp

/-- C9 (amended): `update_factor_estimates` is a pure function: whenever it
succeeds, the result it RETURNS is a fresh pair obtained by blending the old
estimates with the freshly estimated factors; the caller must rebind the
returned value (as the script's line 158 does), since the argument is not
updated in place. -/
theorem C9_update_returns_fresh_estimates :
    ∀ (As Gs : List (Mat ℚ)) (a g : List (List (Mat ℚ))) (eps : ℚ)
      (res : List (Mat ℚ) × List (Mat ℚ)),
      update_factor_estimates (As, Gs) (a, g) eps = some res →
      ∃ Ahats Ghats,
        estimate_block_kron_factors a true = some Ahats ∧
        estimate_block_kron_factors g false = some Ghats ∧
        res = (List.zipWith (ema_update eps) As Ahats,
               List.zipWith (ema_update eps) Gs Ghats) := by
  intro As Gs a g eps res h
  unfold update_factor_estimates at h
  cases h1 : estimate_block_kron_factors a true with
  | none => rw [h1] at h; simp at h
  | some Ahats =>
    cases h2 : estimate_block_kron_factors g false with
    | none => rw [h1, h2] at h; simp at h
    | some Ghats =>
      rw [h1, h2] at h
      simp only [Option.some.injEq] at h
      exact ⟨Ahats, Ghats, rfl, rfl, h.symm⟩

/-- Closed witness for the amended C9 at a concrete shape-matched input. -/
theorem C9_update_returns_fresh_estimates_witness :
    ∃ Ahats Ghats,
      estimate_block_kron_factors (α := ℚ) [[[[1]]]] true = some Ahats ∧
      estimate_block_kron_factors (α := ℚ) [[[[1]]]] false = some Ghats ∧
      (([[[1 / 2, 1 / 2], [1 / 2, 1 / 2]]], [[[1 / 2]]]) :
          List (Mat ℚ) × List (Mat ℚ)) =
        (List.zipWith (ema_update (1 / 2 : ℚ)) [[[0, 0], [0, 0]]] Ahats,
         List.zipWith (ema_update (1 / 2 : ℚ)) [[[0]]] Ghats) :=
  C9_update_returns_fresh_estimates [[[0, 0], [0, 0]]] [[[0]]] [[[[1]]]] [[[[1]]]] (1 / 2)
    ([[[1 / 2, 1 / 2], [1 / 2, 1 / 2]]], [[[1 / 2]]])
    (by simp [update_factor_estimates, estimate_block_kron_factors, num_samples_of,
        matDivScalar, matSumList, sumsq, append_homog_coord, List.getD, List.range_succ,
        ema_update, matAdd, matScale]
        norm_num)

/-- C10: the division by the sample count in `estimate_block_kron_factors`
is unguarded and the count comes from the first layer's sample list only:
whenever the first layer's accumulated batches hold zero total rows the
computation fails (`ZeroDivisionError`, embedded as `none`) — in particular
`update_factor_estimates` on freshly initialized empty sample lists fails —
and a well-defined `some` result is produced exactly when the first layer
has at least one accumulated batch with at least one sample row. -/
theorem C10_unguarded_zero_sample_division :
    (∀ (as : List (List (Mat ℚ))) (ah : Bool),
        num_samples_of as = 0 → estimate_block_kron_factors as ah = none) ∧
    (∀ (old : List (Mat ℚ) × List (Mat ℚ)) (ls : List Nat) (eps : ℚ),
        update_factor_estimates old (init_sample_lists ls) eps = none) ∧
    (∀ (as : List (List (Mat ℚ))) (ah : Bool),
        num_samples_of as ≠ 0 →
        ∃ res, estimate_block_kron_factors as ah = some res) ∧
    (∀ as : List (List (Mat ℚ)),
        num_samples_of as ≠ 0 ↔ ∃ b ∈ as.headD [], 0 < b.length) := by
  refine ⟨fun as ah h => estimate_none_of_num_zero as ah h, ?_, ?_, ?_⟩
  · intro old ls eps
    unfold update_factor_estimates
    rw [estimate_none_of_num_zero _ true (num_samples_init_fst ls)]
  · intro as ah h
    refine ⟨as.map (fun layer_samples =>
      matDivScalar (matSumList (layer_samples.map
        (fun s => sumsq ((if ah then append_homog_coord else id) s))))
        ((num_samples_of as : ℚ))), ?_⟩
    simp only [estimate_block_kron_factors]
    rw [if_neg h]
  · intro as
    unfold num_samples_of
    exact sum_lengths_ne_zero_iff (as.headD [])

/-- Closed witness for C10 at concrete sample lists. -/
theorem C10_unguarded_zero_sample_division_witness :
    estimate_block_kron_factors (α := ℚ) [[]] false = none ∧
    update_factor_estimates (α := ℚ) ([[[1]]], [[[1]]]) (init_sample_lists [2, 3]) (1 / 20) = none ∧
    (∃ res, estimate_block_kron_factors (α := ℚ) [[[[1]]]] true = some res) ∧
    (num_samples_of (α := ℚ) [[[[1]]]] ≠ 0 ↔
      ∃ b ∈ ([[[[1]]]] : List (List (Mat ℚ))).headD [], 0 < b.length) :=
  ⟨C10_unguarded_zero_sample_division.1 [[]] false (by simp [num_samples_of]),
   C10_unguarded_zero_sample_division.2.1 ([[[1]]], [[[1]]]) [2, 3] (1 / 20),
   C10_unguarded_zero_sample_division.2.2.1 [[[[1]]]] true (by simp [num_samples_of]),
   C10_unguarded_zero_sample_division.2.2.2 [[[[1]]]]⟩

/-- C2 counterexample: with two layers whose accumulated batches hold
different total row counts (layer 0: one batch of 1 row; layer 1: one batch
of 2 rows), the code divides BOTH layers by layer 0's total (1), so layer 1
yields `[[2]]`, while dividing layer 1's sum of squares by its own total row
count (2) would yield `[[1]]`. -/
theorem C2_counterexample_first_layer_denominator :
    estimate_block_kron_factors (α := ℚ) [[[[1]]], [[[1], [1]]]] false =
      some [[[1]], [[2]]] ∧
    matDivScalar (matSumList (([[[1], [1]]] : List (Mat ℚ)).map (fun s => sumsq (id s))))
      (((([[[1], [1]]] : List (Mat ℚ)).map List.length).sum : Nat) : ℚ) = [[1]] ∧
    ([[(2 : ℚ)]] : Mat ℚ) ≠ [[1]] := by
  refine ⟨?_, ?_, by norm_num⟩
  · simp [estimate_block_kron_factors, num_samples_of, matDivScalar, matSumList,
      sumsq, List.getD, List.range_succ]
    norm_num
  · simp [matDivScalar, matSumList, sumsq, List.getD, List.range_succ]

/-- C2 (amended): for every per-layer list of sample batches accepted by
the code, each layer's returned matrix is, entrywise, the sum over that
layer's batches of `homog(batch)^T . homog(batch)` divided by the total
number of sample rows of the FIRST layer's batches (the single combined
denominator `num_samples`; when every layer's batches hold the same total
row count — as in the script, which appends one equal-sized batch per layer
per iteration — this equals that layer's own total), where `homog` appends
a constant-1 column when `append_homog` is true and is the identity
otherwise. -/
theorem C2_estimate_block_kron_factors_formula :
    ∀ (all_samples : List (List (Mat ℚ))) (ah : Bool) (res : List (Mat ℚ))
      (i w j k : Nat),
      estimate_block_kron_factors all_samples ah = some res →
      i < all_samples.length →
      (∀ b ∈ all_samples.getD i [], b ≠ [] ∧ ∀ r ∈ b, r.length = w) →
      j < (if ah then w + 1 else w) → k < (if ah then w + 1 else w) →
      entry (res.getD i []) j k =
        ((all_samples.getD i []).map (fun b =>
          (((if ah then append_homog_coord else id) b).map
            (fun r => r.getD j 0 * r.getD k 0)).sum)).sum
          / (num_samples_of all_samples : ℚ) := by
  intro as ah res i w j k hres hi hrect hj hk
  have hnum : num_samples_of as ≠ 0 := by
    intro h0
    rw [estimate_none_of_num_zero as ah h0] at hres
    exact Option.noConfusion hres
  have hres' : res = as.map (fun layer_samples =>
      matDivScalar (matSumList (layer_samples.map
        (fun s => sumsq ((if ah then append_homog_coord else id) s))))
        ((num_samples_of as : ℚ))) := by
    simp only [estimate_block_kron_factors] at hres
    rw [if_neg hnum] at hres
    exact (Option.some.injEq _ _).mp hres |>.symm
  subst hres'
  rw [getD_map_lt _ [] [] as i hi]
  set layer := as.getD i [] with hlayer
  set homog := (if ah then append_homog_coord else id : Mat ℚ → Mat ℚ) with hhomog
  set w2 := (if ah then w + 1 else w : Nat) with hw2
  have hhom : ∀ b ∈ layer, ((homog b).headD []).length = w2 := by
    intro b hb
    obtain ⟨hbne, hbrect⟩ := hrect b hb
    cases b with
    | nil => exact absurd rfl hbne
    | cons r0 t =>
      have hr0 : r0.length = w := hbrect r0 (List.mem_cons_self r0 t)
      cases ah with
      | false => simp [homog, hw2]; exact hr0
      | true => simp [homog, append_homog_coord, hr0, hw2]
  cases hL : layer with
  | nil =>
    simp [matSumList, matDivScalar, entry, List.getD]
  | cons b0 bt =>
    have hsq : ∀ M ∈ (layer.map (fun s => sumsq (homog s))), IsSquareMat w2 M := by
      intro M hM
      obtain ⟨b, hb, rfl⟩ := List.mem_map.mp hM
      exact sumsq_isSquare (homog b) w2 (hhom b hb)
    have hne : (layer.map (fun s => sumsq (homog s))) ≠ [] := by
      rw [hL]; simp
    rw [← hL]
    rw [entry_matDivScalar _ _ j k
      (by rw [(matSumList_isSquare hne hsq).1]; exact hj)
      (by rw [(matSumList_isSquare hne hsq).2 _
          (getD_mem_of_lt _ j []
            (by rw [(matSumList_isSquare hne hsq).1]; exact hj))]
          exact hk)]
    rw [matSumList_entry j k hj hk hne hsq]
    rw [List.map_map]
    have hmaps : List.map ((fun M => entry M j k) ∘ fun s => sumsq (homog s)) layer
        = List.map (fun b =>
            (List.map (fun r => r.getD j 0 * r.getD k 0) (homog b)).sum) layer := by
      apply List.map_congr_left
      intro b hb
      simp only [Function.comp]
      exact entry_sumsq (homog b) j k (by rw [hhom b hb]; exact hj)
        (by rw [hhom b hb]; exact hk)
    rw [hmaps]

/-- Closed witness for the amended C2 at a concrete two-row batch. -/
theorem C2_estimate_block_kron_factors_formula_witness :
    entry (([[[5 / 2]]] : List (Mat ℚ)).getD 0 []) 0 0 =
      ((([[[[1], [2]]]] : List (List (Mat ℚ))).getD 0 []).map (fun b =>
        (((if false then append_homog_coord else id) b).map
          (fun r => r.getD 0 0 * r.getD 0 0)).sum)).sum
        / (num_samples_of ([[[[1], [2]]]] : List (List (Mat ℚ))) : ℚ) :=
  C2_estimate_block_kron_factors_formula [[[[1], [2]]]] false [[[5 / 2]]] 0 1 0 0
    (by simp [estimate_block_kron_factors, num_samples_of, matDivScalar, matSumList,
        sumsq, List.getD, List.range_succ]
        norm_num)
    (by simp)
    (by intro b hb
        simp only [List.getD] at hb
        simp at hb
        subst hb
        refine ⟨by simp, ?_⟩
        intro r hr
        simp at hr
        rcases hr with h | h <;> subst h <;> rfl)
    (by simp)
    (by simp)

section ShapeLemmas

variable {α : Type} [LinearOrderedField α]

theorem np_eye_isSquare (n : Nat) : IsSquareMat n (np_eye (β := α) n) := by
  constructor
  · simp [np_eye]
  · intro r hr
    simp only [np_eye] at hr
    obtain ⟨i, hi, rfl⟩ := List.mem_map.mp hr
    simp

theorem entry_np_eye (n i j : Nat) (hi : i < n) (hj : j < n) :
    entry (np_eye (β := α) n) i j = if i = j then (1 : α) else 0 := by
  unfold entry np_eye
  rw [getD_map_lt _ [] 0 _ i (by simpa using hi)]
  rw [getD_map_lt _ 0 0 _ j (by simpa using hj)]
  rw [List.getD_eq_getElem?_getD, List.getElem?_range hi,
    List.getD_eq_getElem?_getD, List.getElem?_range hj]
  rfl

theorem matScale_isSquare {n : Nat} (c : α) {A : Mat α} (hA : IsSquareMat n A) :
    IsSquareMat n (matScale c A) := by
  constructor
  · simp [matScale, hA.1]
  · intro r hr
    simp only [matScale] at hr
    obtain ⟨s, hs, rfl⟩ := List.mem_map.mp hr
    simp [hA.2 s hs]

theorem matDivScalar_isSquare {n : Nat} (c : α) {A : Mat α} (hA : IsSquareMat n A) :
    IsSquareMat n (matDivScalar A c) := by
  constructor
  · simp [matDivScalar, hA.1]
  · intro r hr
    simp only [matDivScalar] at hr
    obtain ⟨s, hs, rfl⟩ := List.mem_map.mp hr
    simp [hA.2 s hs]

theorem ema_update_isSquare {n : Nat} (eps : α) {A B : Mat α}
    (hA : IsSquareMat n A) (hB : IsSquareMat n B) :
    IsSquareMat n (ema_update eps A B) :=
  matAdd_isSquare (matScale_isSquare eps hA) (matScale_isSquare (1 - eps) hB)

/-- The `some`-branch of `estimate_block_kron_factors`, made explicit. -/
theorem estimate_some_eq (as : List (List (Mat α))) (ah : Bool) (res : List (Mat α))
    (h : estimate_block_kron_factors as ah = some res) :
    res = as.map (fun layer_samples =>
      matDivScalar (matSumList (layer_samples.map
        (fun s => sumsq ((if ah then append_homog_coord else id) s))))
        ((num_samples_of as : α))) := by
  have hnum : num_samples_of as ≠ 0 := by
    intro h0
    rw [estimate_none_of_num_zero as ah h0] at h
    exact Option.noConfusion h
  simp only [estimate_block_kron_factors] at h
  rw [if_neg hnum] at h
  exact ((Option.some.injEq _ _).mp h).symm

theorem homog_headD_length (ah : Bool) (b : Mat α) (w : Nat)
    (hne : b ≠ []) (hrect : ∀ r ∈ b, r.length = w) :
    (((if ah then append_homog_coord else id) b).headD []).length =
      (if ah then w + 1 else w) := by
  cases b with
  | nil => exact absurd rfl hne
  | cons r0 t =>
    have hr0 : r0.length = w := hrect r0 (List.mem_cons_self r0 t)
    cases ah with
    | false => simpa using hr0
    | true => simp [append_homog_coord, hr0]

/-- Each layer's estimated factor matrix is square of the layer's
(homogenized) width, provided the layer has at least one batch and all its
rows have a uniform width. -/
theorem estimate_layer_isSquare (as : List (List (Mat α))) (ah : Bool)
    (res : List (Mat α)) (i w : Nat)
    (hres : estimate_block_kron_factors as ah = some res)
    (hi : i < as.length)
    (hne : as.getD i [] ≠ [])
    (hrect : ∀ b ∈ as.getD i [], b ≠ [] ∧ ∀ r ∈ b, r.length = w) :
    IsSquareMat (if ah then w + 1 else w) (res.getD i []) := by
  rw [estimate_some_eq as ah res hres]
  rw [getD_map_lt _ [] [] as i hi]
  apply matDivScalar_isSquare
  apply matSumList_isSquare
  · simpa using hne
  · intro M hM
    obtain ⟨b, hb, rfl⟩ := List.mem_map.mp hM
    exact sumsq_isSquare _ _
      (homog_headD_length ah b w (hrect b hb).1 (hrect b hb).2)

end ShapeLemmas

/-- C4: `init_factor_estimates [784, 200, 100, 10]` yields the identity
matrices of sizes 785, 201, 101 for the activation factors and 200, 100, 10
for the gradient factors (in general, per-layer identities of size
`width+1` resp. `width`); `np_eye n` is the `n × n` identity; and one call
to `update_factor_estimates` on suitably shaped samples preserves every
factor matrix's shape. -/
theorem C4_init_identities_and_shape_preservation :
    (init_factor_estimates (α := ℚ) [784, 200, 100, 10] =
      ([np_eye 785, np_eye 201, np_eye 101],
       [np_eye 200, np_eye 100, np_eye 10])) ∧
    (∀ n : Nat, IsSquareMat n (np_eye (β := ℚ) n) ∧
      ∀ i j : Nat, i < n → j < n →
        entry (np_eye (β := ℚ) n) i j = if i = j then (1 : ℚ) else 0) ∧
    (∀ (ws : List Nat) (a g : List (List (Mat ℚ))) (eps : ℚ)
        (As2 Gs2 : List (Mat ℚ)),
        update_factor_estimates (init_factor_estimates ws) (a, g) eps =
          some (As2, Gs2) →
        a.length = ws.dropLast.length →
        g.length = (ws.drop 1).length →
        (∀ i, i < a.length → a.getD i [] ≠ [] ∧
          ∀ b ∈ a.getD i [], b ≠ [] ∧ ∀ r ∈ b, r.length = ws.dropLast.getD i 0) →
        (∀ i, i < g.length → g.getD i [] ≠ [] ∧
          ∀ b ∈ g.getD i [], b ≠ [] ∧ ∀ r ∈ b, r.length = (ws.drop 1).getD i 0) →
        As2.length = ws.dropLast.length ∧ Gs2.length = (ws.drop 1).length ∧
        (∀ i, i < As2.length →
          IsSquareMat (ws.dropLast.getD i 0 + 1) (As2.getD i [])) ∧
        (∀ i, i < Gs2.length →
          IsSquareMat ((ws.drop 1).getD i 0) (Gs2.getD i []))) := by
  refine ⟨rfl, fun n => ⟨np_eye_isSquare n, fun i j hi hj => entry_np_eye n i j hi hj⟩, ?_⟩
  intro ws a g eps As2 Gs2 hupd ha hg hrectA hrectG
  obtain ⟨Ahats, Ghats, hA, hG, hpair⟩ :=
    (by
      intro h
      unfold update_factor_estimates at h
      cases h1 : estimate_block_kron_factors a true with
      | none => rw [h1] at h; simp at h
      | some Ahats =>
        cases h2 : estimate_block_kron_factors g false with
        | none => rw [h1, h2] at h; simp at h
        | some Ghats =>
          rw [h1, h2] at h
          simp only [Option.some.injEq] at h
          exact ⟨Ahats, Ghats, rfl, rfl, h.symm⟩ :
      update_factor_estimates (init_factor_estimates (α := ℚ) ws) (a, g) eps =
        some (As2, Gs2) →
      ∃ Ahats Ghats, estimate_block_kron_factors a true = some Ahats ∧
        estimate_block_kron_factors g false = some Ghats ∧
        (As2, Gs2) = (List.zipWith (ema_update eps) (init_factor_estimates ws).1 Ahats,
          List.zipWith (ema_update eps) (init_factor_estimates ws).2 Ghats)) hupd
  have hAhats : Ahats.length = a.length := by
    rw [estimate_some_eq a true Ahats hA]; simp
  have hGhats : Ghats.length = g.length := by
    rw [estimate_some_eq g false Ghats hG]; simp
  have hAs2 : As2 = List.zipWith (ema_update eps) (init_factor_estimates ws).1 Ahats := by
    exact congrArg Prod.fst hpair
  have hGs2 : Gs2 = List.zipWith (ema_update eps) (init_factor_estimates ws).2 Ghats := by
    exact congrArg Prod.snd hpair
  have hinitA : (init_factor_estimates (α := ℚ) ws).1.length = ws.dropLast.length := by
    simp [init_factor_estimates]
  have hinitG : (init_factor_estimates (α := ℚ) ws).2.length = (ws.drop 1).length := by
    simp [init_factor_estimates]
  have hlenA : As2.length = ws.dropLast.length := by
    rw [hAs2, List.length_zipWith, hinitA, hAhats, ha, Nat.min_self]
  have hlenG : Gs2.length = (ws.drop 1).length := by
    rw [hGs2, List.length_zipWith, hinitG, hGhats, hg, Nat.min_self]
  refine ⟨hlenA, hlenG, ?_, ?_⟩
  · intro i hi
    have hiw : i < ws.dropLast.length := hlenA ▸ hi
    have hia : i < a.length := by rw [ha]; exact hiw
    have hiA : i < (init_factor_estimates (α := ℚ) ws).1.length := by
      rw [hinitA]; exact hiw
    have hiAh : i < Ahats.length := by rw [hAhats]; exact hia
    rw [hAs2, getD_zipWith_lt _ [] _ _ i hiA hiAh]
    have hinit_i : (init_factor_estimates (α := ℚ) ws).1.getD i [] =
        np_eye (ws.dropLast.getD i 0 + 1) := by
      unfold init_factor_estimates
      rw [getD_map_lt _ [] 0 _ i hiw]
    rw [hinit_i]
    refine ema_update_isSquare eps (np_eye_isSquare _) ?_
    have := estimate_layer_isSquare a true Ahats i (ws.dropLast.getD i 0) hA hia
      (hrectA i hia).1 (hrectA i hia).2
    simpa using this
  · intro i hi
    have hiw : i < (ws.drop 1).length := hlenG ▸ hi
    have hig : i < g.length := by rw [hg]; exact hiw
    have hiG : i < (init_factor_estimates (α := ℚ) ws).2.length := by
      rw [hinitG]; exact hiw
    have hiGh : i < Ghats.length := by rw [hGhats]; exact hig
    rw [hGs2, getD_zipWith_lt _ [] _ _ i hiG hiGh]
    have hinit_i : (init_factor_estimates (α := ℚ) ws).2.getD i [] =
        np_eye ((ws.drop 1).getD i 0) := by
      unfold init_factor_estimates
      rw [getD_map_lt _ [] 0 _ i hiw]
    rw [hinit_i]
    refine ema_update_isSquare eps (np_eye_isSquare _) ?_
    have := estimate_layer_isSquare g false Ghats i ((ws.drop 1).getD i 0) hG hig
      (hrectG i hig).1 (hrectG i hig).2
    simpa using this

/-- Closed witness for C4's shape-preservation clause at layer sizes
`[1, 1]` with one single-row batch per layer. -/
theorem C4_init_identities_and_shape_preservation_witness :
    ([[[1 / 2, 0], [0, 1]]] : List (Mat ℚ)).length = ([1, 1] : List Nat).dropLast.length ∧
    ([[[1 / 2]]] : List (Mat ℚ)).length = (([1, 1] : List Nat).drop 1).length ∧
    (∀ i, i < ([[[1 / 2, 0], [0, 1]]] : List (Mat ℚ)).length →
      IsSquareMat (([1, 1] : List Nat).dropLast.getD i 0 + 1)
        (([[[1 / 2, 0], [0, 1]]] : List (Mat ℚ)).getD i [])) ∧
    (∀ i, i < ([[[1 / 2]]] : List (Mat ℚ)).length →
      IsSquareMat ((([1, 1] : List Nat).drop 1).getD i 0)
        (([[[1 / 2]]] : List (Mat ℚ)).getD i [])) :=
  C4_init_identities_and_shape_preservation.2.2 [1, 1] [[[[0]]]] [[[[0]]]] (1 / 2)
    [[[1 / 2, 0], [0, 1]]] [[[1 / 2]]]
    (by simp [update_factor_estimates, estimate_block_kron_factors, num_samples_of,
        matDivScalar, matSumList, sumsq, append_homog_coord, List.getD, List.range_succ,
        ema_update, matAdd, matScale, init_factor_estimates, np_eye])
    (by simp) (by simp)
    (by intro i hi
        simp at hi
        subst hi
        refine ⟨by simp [List.getD], ?_⟩
        intro b hb
        simp [List.getD] at hb
        subst hb
        refine ⟨by simp, ?_⟩
        intro r hr
        simp at hr
        subst hr
        rfl)
    (by intro i hi
        simp at hi
        subst hi
        refine ⟨by simp [List.getD], ?_⟩
        intro b hb
        simp [List.getD] at hb
        subst hb
        refine ⟨by simp, ?_⟩
        intro r hr
        simp at hr
        subst hr
        rfl)

section SymmPSD

variable {α : Type} [LinearOrderedField α]

/-- Symmetry of a matrix, entrywise (out-of-range entries read 0). -/
def IsSymmMat (M : Mat α) : Prop := ∀ j k, entry M j k = entry M k j

/-- The quadratic form `x^T M x` over the leading `n × n` block. -/
def quadForm (n : Nat) (M : Mat α) (x : Vec α) : α :=
  ∑ j ∈ Finset.range n, ∑ k ∈ Finset.range n,
    x.getD j 0 * entry M j k * x.getD k 0

/-- Positive semi-definiteness of an `n × n` matrix. -/
def IsPSD (n : Nat) (M : Mat α) : Prop := ∀ x : Vec α, 0 ≤ quadForm n M x

theorem entry_zero_outside {n : Nat} {M : Mat α} (hsq : IsSquareMat n M)
    (j k : Nat) (h : n ≤ j ∨ n ≤ k) : entry M j k = 0 := by
  rcases h with h | h
  · unfold entry
    rw [List.getD_eq_default M [] (by rw [hsq.1]; exact h)]
    simp
  · by_cases hj : j < M.length
    · unfold entry
      rw [List.getD_eq_default _ 0 (by rw [hsq.2 _ (getD_mem_of_lt M j [] hj)]; exact h)]
    · unfold entry
      rw [List.getD_eq_default M [] (by omega)]
      simp

theorem isSymmMat_of_square {n : Nat} {M : Mat α} (hsq : IsSquareMat n M)
    (h : ∀ j k, j < n → k < n → entry M j k = entry M k j) : IsSymmMat M := by
  intro j k
  by_cases hj : j < n
  · by_cases hk : k < n
    · exact h j k hj hk
    · rw [entry_zero_outside hsq j k (Or.inr (by omega)),
        entry_zero_outside hsq k j (Or.inl (by omega))]
  · rw [entry_zero_outside hsq j k (Or.inl (by omega)),
      entry_zero_outside hsq k j (Or.inr (by omega))]

theorem list_sum_eq_range_sum {γ : Type} (s : List γ) (f : γ → α) (d : γ) :
    (s.map f).sum = ∑ i ∈ Finset.range s.length, f (s.getD i d) := by
  induction s with
  | nil => simp
  | cons a t ih =>
    rw [List.map_cons, List.sum_cons, List.length_cons, Finset.sum_range_succ']
    simp only [List.getD_cons_succ, List.getD_cons_zero]
    rw [ih]
    ring

theorem quadForm_sumsq (s : Mat α) (x : Vec α) :
    quadForm ((s.headD []).length) (sumsq s) x =
      ∑ i ∈ Finset.range s.length,
        (∑ j ∈ Finset.range ((s.headD []).length),
          x.getD j 0 * (s.getD i []).getD j 0) ^ 2 := by
  unfold quadForm
  calc
    ∑ j ∈ Finset.range ((s.headD []).length), ∑ k ∈ Finset.range ((s.headD []).length),
        x.getD j 0 * entry (sumsq s) j k * x.getD k 0
      = ∑ j ∈ Finset.range ((s.headD []).length), ∑ k ∈ Finset.range ((s.headD []).length),
          ∑ i ∈ Finset.range s.length,
            (x.getD j 0 * (s.getD i []).getD j 0) * (x.getD k 0 * (s.getD i []).getD k 0) := by
        refine Finset.sum_congr rfl (fun j hj => Finset.sum_congr rfl (fun k hk => ?_))
        rw [entry_sumsq s j k (Finset.mem_range.mp hj) (Finset.mem_range.mp hk),
          list_sum_eq_range_sum s _ [], Finset.mul_sum, Finset.sum_mul]
        exact Finset.sum_congr rfl (fun i _ => by ring)
    _ = ∑ j ∈ Finset.range ((s.headD []).length), ∑ i ∈ Finset.range s.length,
          ∑ k ∈ Finset.range ((s.headD []).length),
            (x.getD j 0 * (s.getD i []).getD j 0) * (x.getD k 0 * (s.getD i []).getD k 0) :=
        Finset.sum_congr rfl (fun j _ => Finset.sum_comm)
    _ = ∑ i ∈ Finset.range s.length, ∑ j ∈ Finset.range ((s.headD []).length),
          ∑ k ∈ Finset.range ((s.headD []).length),
            (x.getD j 0 * (s.getD i []).getD j 0) * (x.getD k 0 * (s.getD i []).getD k 0) :=
        Finset.sum_comm
    _ = ∑ i ∈ Finset.range s.length,
          (∑ j ∈ Finset.range ((s.headD []).length),
            x.getD j 0 * (s.getD i []).getD j 0) ^ 2 := by
        refine Finset.sum_congr rfl (fun i _ => ?_)
        rw [sq, Finset.sum_mul_sum]

theorem sumsq_isPSD (s : Mat α) : IsPSD ((s.headD []).length) (sumsq s) := by
  intro x
  rw [quadForm_sumsq]
  exact Finset.sum_nonneg (fun i _ => sq_nonneg _)

theorem sumsq_isSymmMat (s : Mat α) : IsSymmMat (sumsq s) := by
  refine isSymmMat_of_square (sumsq_isSquare s _ rfl) (fun j k hj hk => ?_)
  rw [entry_sumsq s j k hj hk, entry_sumsq s k j hk hj]
  exact congrArg List.sum (List.map_congr_left (fun r _ => mul_comm _ _))

end SymmPSD

section PSDClosure

variable {α : Type} [LinearOrderedField α]

theorem quadForm_matAdd {n : Nat} {A B : Mat α} (x : Vec α)
    (hA : IsSquareMat n A) (hB : IsSquareMat n B) :
    quadForm n (matAdd A B) x = quadForm n A x + quadForm n B x := by
  unfold quadForm
  rw [← Finset.sum_add_distrib]
  refine Finset.sum_congr rfl (fun j hj => ?_)
  rw [← Finset.sum_add_distrib]
  refine Finset.sum_congr rfl (fun k hk => ?_)
  rw [entry_matAdd_square j k hA hB (Finset.mem_range.mp hj) (Finset.mem_range.mp hk)]
  ring

theorem matAdd_isSymmMat {n : Nat} {A B : Mat α}
    (hA : IsSquareMat n A) (hB : IsSquareMat n B)
    (hsA : IsSymmMat A) (hsB : IsSymmMat B) : IsSymmMat (matAdd A B) := by
  refine isSymmMat_of_square (matAdd_isSquare hA hB) (fun j k hj hk => ?_)
  rw [entry_matAdd_square j k hA hB hj hk, entry_matAdd_square k j hA hB hk hj,
    hsA j k, hsB j k]

theorem entry_matDivScalar_square {n : Nat} {M : Mat α} (c : α) (j k : Nat)
    (hM : IsSquareMat n M) (hj : j < n) (hk : k < n) :
    entry (matDivScalar M c) j k = entry M j k / c := by
  refine entry_matDivScalar M c j k (by rw [hM.1]; exact hj) ?_
  rw [hM.2 _ (getD_mem_of_lt M j [] (by rw [hM.1]; exact hj))]
  exact hk

theorem quadForm_matDivScalar {n : Nat} {M : Mat α} (c : α) (x : Vec α)
    (hM : IsSquareMat n M) :
    quadForm n (matDivScalar M c) x = quadForm n M x / c := by
  unfold quadForm
  rw [Finset.sum_div]
  refine Finset.sum_congr rfl (fun j hj => ?_)
  rw [Finset.sum_div]
  refine Finset.sum_congr rfl (fun k hk => ?_)
  rw [entry_matDivScalar_square c j k hM (Finset.mem_range.mp hj) (Finset.mem_range.mp hk)]
  ring

theorem matDivScalar_isSymmMat {n : Nat} {M : Mat α} (c : α)
    (hM : IsSquareMat n M) (hs : IsSymmMat M) : IsSymmMat (matDivScalar M c) := by
  refine isSymmMat_of_square (matDivScalar_isSquare c hM) (fun j k hj hk => ?_)
  rw [entry_matDivScalar_square c j k hM hj hk, entry_matDivScalar_square c k j hM hk hj,
    hs j k]

theorem entry_matScale_square {n : Nat} {M : Mat α} (c : α) (j k : Nat)
    (hM : IsSquareMat n M) (hj : j < n) (hk : k < n) :
    entry (matScale c M) j k = c * entry M j k := by
  refine entry_matScale c M j k (by rw [hM.1]; exact hj) ?_
  rw [hM.2 _ (getD_mem_of_lt M j [] (by rw [hM.1]; exact hj))]
  exact hk

theorem quadForm_ema_update {n : Nat} {A B : Mat α} (eps : α) (x : Vec α)
    (hA : IsSquareMat n A) (hB : IsSquareMat n B) :
    quadForm n (ema_update eps A B) x =
      eps * quadForm n A x + (1 - eps) * quadForm n B x := by
  unfold ema_update
  rw [quadForm_matAdd x (matScale_isSquare eps hA) (matScale_isSquare (1 - eps) hB)]
  unfold quadForm
  rw [Finset.mul_sum, Finset.mul_sum]
  refine congrArg₂ (· + ·) ?_ ?_ <;>
    refine Finset.sum_congr rfl (fun j hj => ?_) <;>
    rw [Finset.mul_sum] <;>
    refine Finset.sum_congr rfl (fun k hk => ?_)
  · rw [entry_matScale_square eps j k hA (Finset.mem_range.mp hj) (Finset.mem_range.mp hk)]
    ring
  · rw [entry_matScale_square (1 - eps) j k hB (Finset.mem_range.mp hj)
      (Finset.mem_range.mp hk)]
    ring

theorem ema_update_isSymmMat {n : Nat} {A B : Mat α} (eps : α)
    (hA : IsSquareMat n A) (hB : IsSquareMat n B)
    (hsA : IsSymmMat A) (hsB : IsSymmMat B) : IsSymmMat (ema_update eps A B) := by
  unfold ema_update
  refine matAdd_isSymmMat (matScale_isSquare eps hA) (matScale_isSquare (1 - eps) hB) ?_ ?_
  · refine isSymmMat_of_square (matScale_isSquare eps hA) (fun j k hj hk => ?_)
    rw [entry_matScale_square eps j k hA hj hk, entry_matScale_square eps k j hA hk hj,
      hsA j k]
  · refine isSymmMat_of_square (matScale_isSquare (1 - eps) hB) (fun j k hj hk => ?_)
    rw [entry_matScale_square _ j k hB hj hk, entry_matScale_square _ k j hB hk hj,
      hsB j k]

theorem ema_update_isPSD {n : Nat} {A B : Mat α} (eps : α)
    (heps0 : 0 ≤ eps) (heps1 : eps ≤ 1)
    (hA : IsSquareMat n A) (hB : IsSquareMat n B)
    (hpA : IsPSD n A) (hpB : IsPSD n B) : IsPSD n (ema_update eps A B) := by
  intro x
  rw [quadForm_ema_update eps x hA hB]
  have h1 : 0 ≤ eps * quadForm n A x := mul_nonneg heps0 (hpA x)
  have h2 : 0 ≤ (1 - eps) * quadForm n B x :=
    mul_nonneg (by linarith) (hpB x)
  linarith

theorem foldl_matAdd_symm_psd {n : Nat} :
    ∀ (t : List (Mat α)) (h : Mat α),
      IsSquareMat n h ∧ IsSymmMat h ∧ IsPSD n h →
      (∀ M ∈ t, IsSquareMat n M ∧ IsSymmMat M ∧ IsPSD n M) →
      IsSquareMat n (t.foldl matAdd h) ∧ IsSymmMat (t.foldl matAdd h) ∧
        IsPSD n (t.foldl matAdd h) := by
  intro t
  induction t with
  | nil => intro h hh _; exact hh
  | cons M t ih =>
    intro h hh hmem
    have hM := hmem M (List.mem_cons_self M t)
    refine ih (matAdd h M) ⟨matAdd_isSquare hh.1 hM.1,
      matAdd_isSymmMat hh.1 hM.1 hh.2.1 hM.2.1, ?_⟩
      (fun N hN => hmem N (List.mem_cons_of_mem M hN))
    intro x
    rw [quadForm_matAdd x hh.1 hM.1]
    exact add_nonneg (hh.2.2 x) (hM.2.2 x)

theorem matSumList_symm_psd {n : Nat} {L : List (Mat α)} (hne : L ≠ [])
    (hL : ∀ M ∈ L, IsSquareMat n M ∧ IsSymmMat M ∧ IsPSD n M) :
    IsSquareMat n (matSumList L) ∧ IsSymmMat (matSumList L) ∧
      IsPSD n (matSumList L) := by
  cases L with
  | nil => exact absurd rfl hne
  | cons h t =>
    exact foldl_matAdd_symm_psd t h (hL h (List.mem_cons_self h t))
      (fun N hN => hL N (List.mem_cons_of_mem h hN))

theorem np_eye_isSymmMat (n : Nat) : IsSymmMat (np_eye (β := α) n) := by
  refine isSymmMat_of_square (np_eye_isSquare n) (fun j k hj hk => ?_)
  rw [entry_np_eye n j k hj hk, entry_np_eye n k j hk hj]
  simp [eq_comm]

theorem np_eye_isPSD (n : Nat) : IsPSD n (np_eye (β := α) n) := by
  intro x
  unfold quadForm
  have hsum : ∀ j ∈ Finset.range n,
      (∑ k ∈ Finset.range n, x.getD j 0 * entry (np_eye (β := α) n) j k * x.getD k 0)
        = x.getD j 0 * x.getD j 0 := by
    intro j hj
    have hj' := Finset.mem_range.mp hj
    have : ∀ k ∈ Finset.range n,
        x.getD j 0 * entry (np_eye (β := α) n) j k * x.getD k 0
          = if j = k then x.getD j 0 * x.getD k 0 else 0 := by
      intro k hk
      rw [entry_np_eye n j k hj' (Finset.mem_range.mp hk)]
      by_cases h : j = k <;> simp [h]
    rw [Finset.sum_congr rfl this, Finset.sum_ite_eq (Finset.range n) j
      (fun k => x.getD j 0 * x.getD k 0)]
    simp [hj']
  rw [Finset.sum_congr rfl hsum]
  exact Finset.sum_nonneg (fun j _ => mul_self_nonneg _)

end PSDClosure

section EstimatePSD

variable {α : Type} [LinearOrderedField α]

/-- Destructured `some`-result of `update_factor_estimates`. -/
theorem update_factor_estimates_some_parts (As Gs : List (Mat α))
    (a g : List (List (Mat α))) (eps : α) (As2 Gs2 : List (Mat α))
    (h : update_factor_estimates (As, Gs) (a, g) eps = some (As2, Gs2)) :
    ∃ Ahats Ghats,
      estimate_block_kron_factors a true = some Ahats ∧
      estimate_block_kron_factors g false = some Ghats ∧
      As2 = List.zipWith (ema_update eps) As Ahats ∧
      Gs2 = List.zipWith (ema_update eps) Gs Ghats := by
  unfold update_factor_estimates at h
  cases h1 : estimate_block_kron_factors a true with
  | none => rw [h1] at h; simp at h
  | some Ahats =>
    cases h2 : estimate_block_kron_factors g false with
    | none => rw [h1, h2] at h; simp at h
    | some Ghats =>
      rw [h1, h2] at h
      simp only [Option.some.injEq, Prod.mk.injEq] at h
      exact ⟨Ahats, Ghats, rfl, rfl, h.1.symm, h.2.symm⟩

/-- Each layer's estimated factor matrix is symmetric and positive
semi-definite (of the layer's homogenized width). -/
theorem estimate_layer_symm_psd (as : List (List (Mat α))) (ah : Bool)
    (res : List (Mat α)) (i w : Nat)
    (hres : estimate_block_kron_factors as ah = some res)
    (hi : i < as.length)
    (hrect : ∀ b ∈ as.getD i [], b ≠ [] ∧ ∀ r ∈ b, r.length = w) :
    IsSymmMat (res.getD i []) ∧ IsPSD (if ah then w + 1 else w) (res.getD i []) := by
  rw [estimate_some_eq as ah res hres]
  rw [getD_map_lt _ [] [] as i hi]
  cases hL : as.getD i [] with
  | nil =>
    constructor
    · intro j k
      simp [matSumList, matDivScalar, entry, List.getD]
    · intro x
      unfold quadForm
      simp [matSumList, matDivScalar, entry, List.getD]
  | cons b0 bt =>
    rw [← hL]
    have hparts : ∀ M ∈ ((as.getD i []).map
        (fun s => sumsq ((if ah then append_homog_coord else id) s))),
        IsSquareMat (if ah then w + 1 else w) M ∧ IsSymmMat M ∧
          IsPSD (if ah then w + 1 else w) M := by
      intro M hM
      obtain ⟨b, hb, rfl⟩ := List.mem_map.mp hM
      have hw := homog_headD_length ah b w (hrect b hb).1 (hrect b hb).2
      refine ⟨sumsq_isSquare _ _ hw, sumsq_isSymmMat _, ?_⟩
      have := sumsq_isPSD ((if ah then append_homog_coord else id) b)
      rwa [hw] at this
    have hne : ((as.getD i []).map
        (fun s => sumsq ((if ah then append_homog_coord else id) s))) ≠ [] := by
      rw [hL]; simp
    obtain ⟨hsq, hsymm, hpsd⟩ := matSumList_symm_psd hne hparts
    constructor
    · exact matDivScalar_isSymmMat _ hsq hsymm
    · intro x
      rw [quadForm_matDivScalar _ x hsq]
      exact div_nonneg (hpsd x) (Nat.cast_nonneg _)

end EstimatePSD

/-- C5: every Kronecker-factor matrix is symmetric positive semi-definite,
as an invariant: the identity matrices produced by `init_factor_estimates`
are symmetric PSD, every matrix produced by `estimate_block_kron_factors`
is symmetric PSD, and `update_factor_estimates` preserves symmetry and
positive semi-definiteness of every factor matrix for `eps ∈ [0, 1]`. -/
theorem C5_factor_matrices_symmetric_psd :
    (∀ ls : List Nat,
      (∀ M ∈ (init_factor_estimates (α := ℚ) ls).1,
        IsSymmMat M ∧ ∃ n, IsSquareMat n M ∧ IsPSD n M) ∧
      (∀ M ∈ (init_factor_estimates (α := ℚ) ls).2,
        IsSymmMat M ∧ ∃ n, IsSquareMat n M ∧ IsPSD n M)) ∧
    (∀ (as : List (List (Mat ℚ))) (ah : Bool) (res : List (Mat ℚ)) (i w : Nat),
      estimate_block_kron_factors as ah = some res →
      i < as.length →
      (∀ b ∈ as.getD i [], b ≠ [] ∧ ∀ r ∈ b, r.length = w) →
      IsSymmMat (res.getD i []) ∧
        IsPSD (if ah then w + 1 else w) (res.getD i [])) ∧
    (∀ (As Gs : List (Mat ℚ)) (a g : List (List (Mat ℚ))) (eps : ℚ)
        (As2 Gs2 : List (Mat ℚ)) (i w : Nat),
      update_factor_estimates (As, Gs) (a, g) eps = some (As2, Gs2) →
      0 ≤ eps → eps ≤ 1 → i < As.length → i < a.length →
      (∀ b ∈ a.getD i [], b ≠ [] ∧ ∀ r ∈ b, r.length = w) →
      IsSquareMat (w + 1) (As.getD i []) → IsSymmMat (As.getD i []) →
      IsPSD (w + 1) (As.getD i []) →
      IsSymmMat (As2.getD i []) ∧ IsPSD (w + 1) (As2.getD i [])) ∧
    (∀ (As Gs : List (Mat ℚ)) (a g : List (List (Mat ℚ))) (eps : ℚ)
        (As2 Gs2 : List (Mat ℚ)) (i w : Nat),
      update_factor_estimates (As, Gs) (a, g) eps = some (As2, Gs2) →
      0 ≤ eps → eps ≤ 1 → i < Gs.length → i < g.length →
      (∀ b ∈ g.getD i [], b ≠ [] ∧ ∀ r ∈ b, r.length = w) →
      IsSquareMat w (Gs.getD i []) → IsSymmMat (Gs.getD i []) →
      IsPSD w (Gs.getD i []) →
      IsSymmMat (Gs2.getD i []) ∧ IsPSD w (Gs2.getD i [])) := by
  refine ⟨?_, ?_, ?_, ?_⟩
  · intro ls
    constructor
    · intro M hM
      simp only [init_factor_estimates] at hM
      obtain ⟨n, hn, rfl⟩ := List.mem_map.mp hM
      exact ⟨np_eye_isSymmMat _, n + 1, np_eye_isSquare _, np_eye_isPSD _⟩
    · intro M hM
      simp only [init_factor_estimates] at hM
      obtain ⟨n, hn, rfl⟩ := List.mem_map.mp hM
      exact ⟨np_eye_isSymmMat _, n, np_eye_isSquare _, np_eye_isPSD _⟩
  · intro as ah res i w hres hi hrect
    exact estimate_layer_symm_psd as ah res i w hres hi hrect
  · intro As Gs a g eps As2 Gs2 i w hupd he0 he1 hiAs hia hrect hsq hsymm hpsd
    obtain ⟨Ahats, Ghats, hA, hG, hAs2, hGs2⟩ :=
      update_factor_estimates_some_parts As Gs a g eps As2 Gs2 hupd
    have hAhats : Ahats.length = a.length := by
      rw [estimate_some_eq a true Ahats hA]; simp
    have hiAh : i < Ahats.length := by rw [hAhats]; exact hia
    rw [hAs2, getD_zipWith_lt _ [] _ _ i hiAs hiAh]
    cases hL : a.getD i [] with
    | nil =>
      have hhat : Ahats.getD i [] = [] := by
        rw [estimate_some_eq a true Ahats hA, getD_map_lt _ [] [] a i hia, hL]
        simp [matSumList, matDivScalar]
      rw [hhat]
      have hblend : ema_update eps (As.getD i []) ([] : Mat ℚ) = [] := by
        simp [ema_update, matScale, matAdd]
      rw [hblend]
      constructor
      · intro j k; simp [entry, List.getD]
      · intro x; unfold quadForm; simp [entry, List.getD]
    | cons b0 bt =>
      have hne : a.getD i [] ≠ [] := by rw [hL]; simp
      have hhatsq := estimate_layer_isSquare a true Ahats i w hA hia hne hrect
      have hhatsp := estimate_layer_symm_psd a true Ahats i w hA hia hrect
      have h1 : IsSquareMat (w + 1) (Ahats.getD i []) := by simpa using hhatsq
      have h2 := hhatsp.1
      have h3 : IsPSD (w + 1) (Ahats.getD i []) := by simpa using hhatsp.2
      exact ⟨ema_update_isSymmMat eps hsq h1 hsymm h2,
        ema_update_isPSD eps he0 he1 hsq h1 hpsd h3⟩
  · intro As Gs a g eps As2 Gs2 i w hupd he0 he1 hiGs hig hrect hsq hsymm hpsd
    obtain ⟨Ahats, Ghats, hA, hG, hAs2, hGs2⟩ :=
      update_factor_estimates_some_parts As Gs a g eps As2 Gs2 hupd
    have hGhats : Ghats.length = g.length := by
      rw [estimate_some_eq g false Ghats hG]; simp
    have hiGh : i < Ghats.length := by rw [hGhats]; exact hig
    rw [hGs2, getD_zipWith_lt _ [] _ _ i hiGs hiGh]
    cases hL : g.getD i [] with
    | nil =>
      have hhat : Ghats.getD i [] = [] := by
        rw [estimate_some_eq g false Ghats hG, getD_map_lt _ [] [] g i hig, hL]
        simp [matSumList, matDivScalar]
      rw [hhat]
      have hblend : ema_update eps (Gs.getD i []) ([] : Mat ℚ) = [] := by
        simp [ema_update, matScale, matAdd]
      rw [hblend]
      constructor
      · intro j k; simp [entry, List.getD]
      · intro x; unfold quadForm; simp [entry, List.getD]
    | cons b0 bt =>
      have hne : g.getD i [] ≠ [] := by rw [hL]; simp
      have hhatsq := estimate_layer_isSquare g false Ghats i w hG hig hne hrect
      have hhatsp := estimate_layer_symm_psd g false Ghats i w hG hig hrect
      have h1 : IsSquareMat w (Ghats.getD i []) := by simpa using hhatsq
      have h2 := hhatsp.1
      have h3 : IsPSD w (Ghats.getD i []) := by simpa using hhatsp.2
      exact ⟨ema_update_isSymmMat eps hsq h1 hsymm h2,
        ema_update_isPSD eps he0 he1 hsq h1 hpsd h3⟩

/-- Closed witness for C5: the invariant instantiated at concrete inputs
(the 2×2 identity, a one-sample estimate, and one blended update). -/
theorem C5_factor_matrices_symmetric_psd_witness :
    (IsSymmMat (np_eye (β := ℚ) 2) ∧
      ∃ n, IsSquareMat n (np_eye (β := ℚ) 2) ∧ IsPSD n (np_eye (β := ℚ) 2)) ∧
    (IsSymmMat (([[[1]]] : List (Mat ℚ)).getD 0 []) ∧
      IsPSD 1 (([[[1]]] : List (Mat ℚ)).getD 0 [])) ∧
    (IsSymmMat (([[[1 / 2, 0], [0, 1]]] : List (Mat ℚ)).getD 0 []) ∧
      IsPSD 2 (([[[1 / 2, 0], [0, 1]]] : List (Mat ℚ)).getD 0 [])) ∧
    (IsSymmMat (([[[1 / 2]]] : List (Mat ℚ)).getD 0 []) ∧
      IsPSD 1 (([[[1 / 2]]] : List (Mat ℚ)).getD 0 [])) :=
  ⟨(C5_factor_matrices_symmetric_psd.1 [1, 1]).1 (np_eye 2)
      (by simp [init_factor_estimates]),
   C5_factor_matrices_symmetric_psd.2.1 [[[[1]]]] false [[[1]]] 0 1
      (by simp [estimate_block_kron_factors, num_samples_of, matDivScalar, matSumList,
        sumsq, List.getD, List.range_succ])
      (by simp)
      (by intro b hb
          simp [List.getD] at hb
          subst hb
          refine ⟨by simp, ?_⟩
          intro r hr
          simp at hr
          subst hr
          rfl),
   C5_factor_matrices_symmetric_psd.2.2.1 [np_eye 2] [np_eye 1] [[[[0]]]] [[[[0]]]]
      (1 / 2) [[[1 / 2, 0], [0, 1]]] [[[1 / 2]]] 0 1
      (by simp [update_factor_estimates, estimate_block_kron_factors, num_samples_of,
        matDivScalar, matSumList, sumsq, append_homog_coord, List.getD, List.range_succ,
        ema_update, matAdd, matScale, np_eye])
      (by norm_num) (by norm_num) (by simp) (by simp)
      (by intro b hb
          simp [List.getD] at hb
          subst hb
          refine ⟨by simp, ?_⟩
          intro r hr
          simp at hr
          subst hr
          rfl)
      (np_eye_isSquare 2) (np_eye_isSymmMat 2) (np_eye_isPSD 2),
   C5_factor_matrices_symmetric_psd.2.2.2 [np_eye 2] [np_eye 1] [[[[0]]]] [[[[0]]]]
      (1 / 2) [[[1 / 2, 0], [0, 1]]] [[[1 / 2]]] 0 1
      (by simp [update_factor_estimates, estimate_block_kron_factors, num_samples_of,
        matDivScalar, matSumList, sumsq, append_homog_coord, List.getD, List.range_succ,
        ema_update, matAdd, matScale, np_eye])
      (by norm_num) (by norm_num) (by simp) (by simp)
      (by intro b hb
          simp [List.getD] at hb
          subst hb
          refine ⟨by simp, ?_⟩
          intro r hr
          simp at hr
          subst hr
          rfl)
      (np_eye_isSquare 1) (np_eye_isSymmMat 1) (np_eye_isPSD 1)⟩

section Sampling

variable {α : Type} [LinearOrderedField α]

theorem cumsumFrom_length (l : Vec α) : ∀ acc : α, (cumsumFrom acc l).length = l.length := by
  induction l with
  | nil => intro acc; rfl
  | cons p t ih => intro acc; simp [cumsumFrom, ih]

theorem cumsumFrom_ge (l : Vec α) : ∀ acc : α, (∀ p ∈ l, 0 ≤ p) →
    ∀ c ∈ cumsumFrom acc l, acc ≤ c := by
  induction l with
  | nil => intro acc _ c hc; simp [cumsumFrom] at hc
  | cons p t ih =>
    intro acc hnn c hc
    simp only [cumsumFrom, List.mem_cons] at hc
    have hp : 0 ≤ p := hnn p (List.mem_cons_self p t)
    rcases hc with rfl | hc
    · linarith
    · have := ih (acc + p) (fun q hq => hnn q (List.mem_cons_of_mem p hq)) c hc
      linarith

theorem filter_length_lt_of_mem {γ : Type} (p : γ → Bool) :
    ∀ (l : List γ) (a : γ), a ∈ l → p a = false → (l.filter p).length < l.length := by
  intro l
  induction l with
  | nil => intro a ha; simp at ha
  | cons b t ih =>
    intro a ha hpa
    rcases List.mem_cons.mp ha with rfl | ha
    · rw [List.filter_cons_of_neg (by simp [hpa])]
      simpa using Nat.lt_succ_of_le (List.length_filter_le p t)
    · cases hb : p b with
      | true =>
        rw [List.filter_cons_of_pos hb]
        simpa using ih a ha hpa
      | false =>
        rw [List.filter_cons_of_neg (by simp [hb])]
        exact Nat.lt_succ_of_lt (ih a ha hpa)

theorem cumsum_count_prefix (u : α) (ltb : α → α → Bool)
    (hltb : ∀ a b : α, ltb a b = true ↔ a < b) :
    ∀ (l : Vec α) (acc : α), (∀ p ∈ l, 0 ≤ p) →
      (∀ m, m < ((cumsumFrom acc l).filter (fun c => ltb c u)).length →
        (cumsumFrom acc l).getD m 0 < u) ∧
      (((cumsumFrom acc l).filter (fun c => ltb c u)).length < (cumsumFrom acc l).length →
        u ≤ (cumsumFrom acc l).getD
          (((cumsumFrom acc l).filter (fun c => ltb c u)).length) 0) := by
  intro l
  induction l with
  | nil =>
    intro acc _
    constructor
    · intro m hm; simp [cumsumFrom] at hm
    · intro h; simp [cumsumFrom] at h
  | cons p t ih =>
    intro acc hnn
    have hnt : ∀ q ∈ t, (0 : α) ≤ q := fun q hq => hnn q (List.mem_cons_of_mem p hq)
    by_cases hlt : acc + p < u
    · have hfc : ((cumsumFrom acc (p :: t)).filter (fun c => ltb c u)) =
          (acc + p) :: ((cumsumFrom (acc + p) t).filter (fun c => ltb c u)) := by
        simp only [cumsumFrom, List.filter_cons]
        rw [if_pos ((hltb _ _).mpr hlt)]
      constructor
      · intro m hm
        rw [hfc] at hm
        simp only [List.length_cons] at hm
        cases m with
        | zero => simpa [cumsumFrom] using hlt
        | succ m' =>
          have := (ih (acc + p) hnt).1 m' (Nat.lt_of_succ_lt_succ hm)
          simpa [cumsumFrom] using this
      · intro hlen
        rw [hfc] at hlen ⊢
        simp only [cumsumFrom, List.length_cons] at hlen ⊢
        rw [List.getD_cons_succ]
        exact (ih (acc + p) hnt).2 (Nat.lt_of_succ_lt_succ hlen)
    · have hge : u ≤ acc + p := not_lt.mp hlt
      have hfc : ((cumsumFrom acc (p :: t)).filter (fun c => ltb c u)) = [] := by
        simp only [cumsumFrom, List.filter_cons]
        rw [if_neg (by simp [hltb]; linarith)]
        refine List.filter_eq_nil_iff.mpr ?_
        intro c hc
        have := cumsumFrom_ge t (acc + p) hnt c hc
        simp [hltb]
        linarith
      constructor
      · intro m hm; rw [hfc] at hm; simp at hm
      · intro _
        rw [hfc]
        simpa [cumsumFrom] using hge

theorem cumsumFrom_last (l : Vec α) : ∀ acc : α, l ≠ [] →
    (cumsumFrom acc l).getD (l.length - 1) 0 = acc + l.sum := by
  induction l with
  | nil => intro acc h; exact absurd rfl h
  | cons p t ih =>
    intro acc _
    cases t with
    | nil => simp [cumsumFrom]
    | cons q t2 =>
      have hih := ih (acc + p) (by simp)
      have hstep : cumsumFrom acc (p :: q :: t2) =
          (acc + p) :: cumsumFrom (acc + p) (q :: t2) := rfl
      rw [hstep]
      have hlen : (p :: q :: t2).length - 1 = ((q :: t2).length - 1) + 1 := by simp
      rw [hlen, List.getD_cons_succ, hih]
      simp only [List.sum_cons]
      ring

theorem getD_zip_lt {γ δ : Type} (l1 : List γ) (l2 : List δ) (i : Nat)
    (d1 : γ) (d2 : δ) (h1 : i < l1.length) (h2 : i < l2.length) :
    (l1.zip l2).getD i (d1, d2) = (l1.getD i d1, l2.getD i d2) := by
  have hz : i < (l1.zip l2).length := by
    rw [List.length_zip]; omega
  rw [List.getD_eq_getElem?_getD, List.getElem?_eq_getElem hz]
  rw [List.getD_eq_getElem?_getD, List.getElem?_eq_getElem h1]
  rw [List.getD_eq_getElem?_getD, List.getElem?_eq_getElem h2]
  simp [List.getElem_zip]

end Sampling

/-- C3 (amended): for every batch of normalized log-probability rows and
per-row uniform draws in `[0, 1)`, `sample_discrete_from_log` returns one
row per input row, each row a valid one-hot vector of width `D` whose
single `1` sits at the FIRST cumulative-probability bin that is greater
than or equal to the row's draw (strictly exceeding it whenever the draw
differs from that cumulative value). -/
theorem C3_sample_discrete_valid_one_hot :
    ∀ (ltb : ℝ → ℝ → Bool), (∀ a b : ℝ, ltb a b = true ↔ a < b) →
    ∀ (logprobs : Mat ℝ) (us : Vec ℝ) (D : Nat),
      0 < D →
      (∀ row ∈ logprobs, row.length = D) →
      (∀ row ∈ logprobs, (row.map Real.exp).sum = 1) →
      us.length = logprobs.length →
      (∀ u ∈ us, 0 ≤ u ∧ u < 1) →
      (sample_discrete_from_log Real.exp ltb logprobs us).length = logprobs.length ∧
      (∀ idx, idx < logprobs.length → ∃ t, t < D ∧
        (sample_discrete_from_log Real.exp ltb logprobs us).getD idx [] =
          (np_eye (β := ℝ) D).getD t [] ∧
        ((sample_discrete_from_log Real.exp ltb logprobs us).getD idx []).length = D ∧
        entry (sample_discrete_from_log Real.exp ltb logprobs us) idx t = 1 ∧
        (∀ m, m < D → m ≠ t →
          entry (sample_discrete_from_log Real.exp ltb logprobs us) idx m = 0) ∧
        (∀ m, m < t →
          (np_cumsum ((logprobs.getD idx []).map Real.exp)).getD m 0 < us.getD idx 0) ∧
        us.getD idx 0 ≤ (np_cumsum ((logprobs.getD idx []).map Real.exp)).getD t 0 ∧
        ((np_cumsum ((logprobs.getD idx []).map Real.exp)).getD t 0 ≠ us.getD idx 0 →
          us.getD idx 0 < (np_cumsum ((logprobs.getD idx []).map Real.exp)).getD t 0)) := by
  intro ltb hltb lp us D hD hrows hnorm hlen hus
  have hzlen : (lp.zip us).length = lp.length := by
    rw [List.length_zip, hlen, Nat.min_self]
  have hslen : (sample_discrete_from_log Real.exp ltb lp us).length = lp.length := by
    simp only [sample_discrete_from_log]
    rw [List.length_map, hzlen]
  refine ⟨hslen, ?_⟩
  intro idx hidx
  have hlp_ne : lp ≠ [] := by
    intro h; rw [h] at hidx; simp at hidx
  have hheadD : (lp.headD []).length = D := by
    cases lp with
    | nil => exact absurd rfl hlp_ne
    | cons r0 t0 => exact hrows r0 (List.mem_cons_self r0 t0)
  have hrowmem : lp.getD idx [] ∈ lp := getD_mem_of_lt lp idx [] hidx
  have hrowlen : (lp.getD idx []).length = D := hrows _ hrowmem
  have hrownorm : ((lp.getD idx []).map Real.exp).sum = 1 := hnorm _ hrowmem
  have hidxu : idx < us.length := by rw [hlen]; exact hidx
  obtain ⟨hu0, hu1⟩ := hus (us.getD idx 0) (getD_mem_of_lt us idx 0 hidxu)
  have hpnn : ∀ p ∈ (lp.getD idx []).map Real.exp, (0 : ℝ) ≤ p := by
    intro p hp
    obtain ⟨x, _, rfl⟩ := List.mem_map.mp hp
    exact Real.exp_nonneg x
  have hplen : ((lp.getD idx []).map Real.exp).length = D := by
    rw [List.length_map, hrowlen]
  have hcvlen : (np_cumsum ((lp.getD idx []).map Real.exp)).length = D := by
    rw [np_cumsum, cumsumFrom_length, hplen]
  have hres_idx : (sample_discrete_from_log Real.exp ltb lp us).getD idx [] =
      (np_eye (β := ℝ) D).getD
        (((np_cumsum ((lp.getD idx []).map Real.exp)).filter
          (fun c => ltb c (us.getD idx 0))).length) [] := by
    simp only [sample_discrete_from_log]
    rw [getD_map_lt _ [] ([], 0) _ idx (by rw [hzlen]; exact hidx)]
    rw [getD_zip_lt lp us idx [] 0 hidx hidxu]
    rw [hheadD]
  have htlt : ((np_cumsum ((lp.getD idx []).map Real.exp)).filter
      (fun c => ltb c (us.getD idx 0))).length < D := by
    have hpne : (lp.getD idx []).map Real.exp ≠ [] := by
      intro h0
      rw [h0] at hplen
      simp at hplen
      omega
    have hlast : (np_cumsum ((lp.getD idx []).map Real.exp)).getD (D - 1) 0 = 1 := by
      have := cumsumFrom_last ((lp.getD idx []).map Real.exp) 0 hpne
      rw [hplen] at this
      rw [np_cumsum, this, hrownorm, zero_add]
    have hmem : (np_cumsum ((lp.getD idx []).map Real.exp)).getD (D - 1) 0 ∈
        np_cumsum ((lp.getD idx []).map Real.exp) :=
      getD_mem_of_lt _ (D - 1) 0 (by rw [hcvlen]; omega)
    have hnotlt : ltb ((np_cumsum ((lp.getD idx []).map Real.exp)).getD (D - 1) 0)
        (us.getD idx 0) = false := by
      rw [hlast]
      cases h : ltb (1 : ℝ) (us.getD idx 0) with
      | false => rfl
      | true => exact absurd ((hltb _ _).mp h) (by linarith)
    have := filter_length_lt_of_mem (fun c => ltb c (us.getD idx 0))
      (np_cumsum ((lp.getD idx []).map Real.exp)) _ hmem hnotlt
    rw [hcvlen] at this
    exact this
  have hpref := cumsum_count_prefix (us.getD idx 0) ltb hltb
    ((lp.getD idx []).map Real.exp) 0 hpnn
  refine ⟨((np_cumsum ((lp.getD idx []).map Real.exp)).filter
      (fun c => ltb c (us.getD idx 0))).length, htlt, hres_idx, ?_, ?_, ?_, ?_, ?_, ?_⟩
  · rw [hres_idx]
    exact (np_eye_isSquare (α := ℝ) D).2 _
      (getD_mem_of_lt _ _ [] (by rw [(np_eye_isSquare (α := ℝ) D).1]; exact htlt))
  · show ((sample_discrete_from_log Real.exp ltb lp us).getD idx []).getD _ 0 = 1
    rw [hres_idx]
    have := entry_np_eye (α := ℝ) D _ _ htlt htlt
    rw [if_pos rfl] at this
    exact this
  · intro m hm hmne
    show ((sample_discrete_from_log Real.exp ltb lp us).getD idx []).getD m 0 = 0
    rw [hres_idx]
    have := entry_np_eye (α := ℝ) D _ m htlt hm
    rw [if_neg (by omega)] at this
    exact this
  · intro m hm
    exact hpref.1 m hm
  · exact hpref.2 (show _ < (np_cumsum ((lp.getD idx []).map Real.exp)).length by
      rw [hcvlen]; exact htlt)
  · intro hne
    exact lt_of_le_of_ne
      (hpref.2 (show _ < (np_cumsum ((lp.getD idx []).map Real.exp)).length by
        rw [hcvlen]; exact htlt))
      (Ne.symm hne)

/-- C3 counterexample: with the normalized row `[log(1/2), log(1/2)]`
(cumulative probabilities `[1/2, 1]`) and the uniform draw `1/2`, the code
places the `1` at index 0 — the first bin that merely EQUALS the draw —
whereas the first cumulative bin strictly exceeding the draw is index 1, so
the claimed "first bin exceeding the draw" characterization fails on ties. -/
theorem C3_counterexample_tie_draw :
    (([-Real.log 2, -Real.log 2].map Real.exp).sum = 1) ∧
    sample_discrete_from_log Real.exp (fun a b : ℝ => decide (a < b))
      [[-Real.log 2, -Real.log 2]] [1 / 2] = [[1, 0]] ∧
    (np_cumsum ([-Real.log 2, -Real.log 2].map Real.exp)).getD 0 0 = 1 / 2 ∧
    (np_cumsum ([-Real.log 2, -Real.log 2].map Real.exp)).getD 1 0 = 1 ∧
    ¬ ((1 : ℝ) / 2 > 1 / 2) ∧ ((1 : ℝ) > 1 / 2) ∧
    ([[1, 0]] : Mat ℝ) ≠ [[0, 1]] := by
  have hexp : Real.exp (-Real.log 2) = 1 / 2 := by
    rw [Real.exp_neg, Real.exp_log (by norm_num : (0 : ℝ) < 2)]
    norm_num
  refine ⟨?_, ?_, ?_, ?_, by norm_num, by norm_num, ?_⟩
  · simp [hexp]
    norm_num
  · norm_num [sample_discrete_from_log, np_cumsum, cumsumFrom, np_eye,
      List.range_succ, hexp, List.filter_cons, List.getD]
  · norm_num [np_cumsum, cumsumFrom, hexp, List.getD]
  · norm_num [np_cumsum, cumsumFrom, hexp, List.getD]
  · norm_num

/-- Closed witness for the amended C3: one normalized two-column row with
draw `1/4`. -/
theorem C3_sample_discrete_valid_one_hot_witness :
    (sample_discrete_from_log Real.exp (fun a b : ℝ => decide (a < b))
      [[-Real.log 2, -Real.log 2]] [1 / 4]).length =
        ([[-Real.log 2, -Real.log 2]] : Mat ℝ).length ∧
    (∃ t, t < 2 ∧
      (sample_discrete_from_log Real.exp (fun a b : ℝ => decide (a < b))
        [[-Real.log 2, -Real.log 2]] [1 / 4]).getD 0 [] =
          (np_eye (β := ℝ) 2).getD t [] ∧
      ((sample_discrete_from_log Real.exp (fun a b : ℝ => decide (a < b))
        [[-Real.log 2, -Real.log 2]] [1 / 4]).getD 0 []).length = 2 ∧
      entry (sample_discrete_from_log Real.exp (fun a b : ℝ => decide (a < b))
        [[-Real.log 2, -Real.log 2]] [1 / 4]) 0 t = 1 ∧
      (∀ m, m < 2 → m ≠ t →
        entry (sample_discrete_from_log Real.exp (fun a b : ℝ => decide (a < b))
          [[-Real.log 2, -Real.log 2]] [1 / 4]) 0 m = 0) ∧
      (∀ m, m < t →
        (np_cumsum ((([[-Real.log 2, -Real.log 2]] : Mat ℝ).getD 0 []).map Real.exp)).getD m 0 <
          ([(1 : ℝ) / 4].getD 0 0)) ∧
      ([(1 : ℝ) / 4].getD 0 0) ≤
        (np_cumsum ((([[-Real.log 2, -Real.log 2]] : Mat ℝ).getD 0 []).map Real.exp)).getD t 0 ∧
      ((np_cumsum ((([[-Real.log 2, -Real.log 2]] : Mat ℝ).getD 0 []).map Real.exp)).getD t 0 ≠
          ([(1 : ℝ) / 4].getD 0 0) →
        ([(1 : ℝ) / 4].getD 0 0) <
          (np_cumsum ((([[-Real.log 2, -Real.log 2]] : Mat ℝ).getD 0 []).map Real.exp)).getD t 0)) := by
  have h := C3_sample_discrete_valid_one_hot (fun a b : ℝ => decide (a < b))
    (by intro a b; simp)
    [[-Real.log 2, -Real.log 2]] [1 / 4] 2 (by norm_num)
    (by intro row hr; simp at hr; subst hr; rfl)
    (by intro row hr
        simp at hr
        subst hr
        simp [Real.exp_neg, Real.exp_log (by norm_num : (0 : ℝ) < 2)]
        norm_num)
    (by simp)
    (by intro u hu; simp at hu; subst hu; norm_num)
  exact ⟨h.1, h.2 0 (by norm_num)⟩

section Forward

variable {α : Type} [Zero α] [Add α] [Mul α]

theorem nn_go_cons (tanh : α → α) (a : Mat α) (p : (Mat α × Vec α) × Mat α)
    (rest : List ((Mat α × Vec α) × Mat α)) :
    nn_go tanh a (p :: rest) =
      (matMap tanh (layer_preactivation a p.1.1 p.1.2 p.2) ::
        (nn_go tanh (matMap tanh (layer_preactivation a p.1.1 p.1.2 p.2)) rest).1,
       some (((nn_go tanh (matMap tanh (layer_preactivation a p.1.1 p.1.2 p.2)) rest).2).getD
         (layer_preactivation a p.1.1 p.1.2 p.2))) := by
  obtain ⟨⟨W, b⟩, eb⟩ := p
  rcases hgo : nn_go tanh (matMap tanh (layer_preactivation a W b eb)) rest with ⟨acts, os⟩
  cases os with
  | none => simp [nn_go, hgo]
  | some s2 => simp [nn_go, hgo]

theorem nn_go_fst_length (tanh : α → α) :
    ∀ (pairs : List ((Mat α × Vec α) × Mat α)) (a : Mat α),
      (nn_go tanh a pairs).1.length = pairs.length := by
  intro pairs
  induction pairs with
  | nil => intro a; rfl
  | cons p rest ih =>
    intro a
    rw [nn_go_cons]
    simp [ih]

theorem nn_go_snd_some (tanh : α → α) :
    ∀ (pairs : List ((Mat α × Vec α) × Mat α)) (a : Mat α), pairs ≠ [] →
      ∃ s, (nn_go tanh a pairs).2 = some s := by
  intro pairs a hne
  cases pairs with
  | nil => exact absurd rfl hne
  | cons p rest =>
    rw [nn_go_cons]
    exact ⟨_, rfl⟩

theorem nn_go_chain (tanh : α → α) :
    ∀ (pairs : List ((Mat α × Vec α) × Mat α)) (a : Mat α) (i : Nat),
      i < pairs.length →
      (a :: (nn_go tanh a pairs).1).getD (i + 1) [] =
        matMap tanh (layer_preactivation ((a :: (nn_go tanh a pairs).1).getD i [])
          (pairs.getD i (([], []), [])).1.1
          (pairs.getD i (([], []), [])).1.2
          (pairs.getD i (([], []), [])).2) := by
  intro pairs
  induction pairs with
  | nil => intro a i h; simp at h
  | cons p rest ih =>
    intro a i h
    rw [nn_go_cons]
    cases i with
    | zero => simp [List.getD]
    | succ i2 =>
      simp only [List.getD_cons_succ]
      exact ih (matMap tanh (layer_preactivation a p.1.1 p.1.2 p.2)) i2
        (Nat.lt_of_succ_lt_succ h)

theorem nn_go_last (tanh : α → α) :
    ∀ (pairs : List ((Mat α × Vec α) × Mat α)) (a : Mat α) (s : Mat α),
      (nn_go tanh a pairs).2 = some s →
      s = layer_preactivation
        ((a :: (nn_go tanh a pairs).1).getD (pairs.length - 1) [])
        (pairs.getD (pairs.length - 1) (([], []), [])).1.1
        (pairs.getD (pairs.length - 1) (([], []), [])).1.2
        (pairs.getD (pairs.length - 1) (([], []), [])).2 := by
  intro pairs
  induction pairs with
  | nil => intro a s h; simp [nn_go] at h
  | cons p rest ih =>
    intro a s h
    cases rest with
    | nil =>
      rw [nn_go_cons] at h ⊢
      simp only [nn_go, Option.getD_none, Option.some.injEq] at h
      simp [List.getD, ← h]
    | cons q rest2 =>
      rw [nn_go_cons] at h ⊢
      obtain ⟨s2, hs2⟩ := nn_go_snd_some tanh (q :: rest2)
        (matMap tanh (layer_preactivation a p.1.1 p.1.2 p.2)) (by simp)
      rw [hs2] at h
      simp only [Option.getD_some, Option.some.injEq] at h
      subst h
      have hidx : (p :: q :: rest2).length - 1 = ((q :: rest2).length - 1) + 1 := by
        simp
      rw [hidx, List.getD_cons_succ, List.getD_cons_succ]
      exact ih (matMap tanh (layer_preactivation a p.1.1 p.1.2 p.2)) s2 hs2

theorem layer_preactivation_row_length (a W : Mat α) (b : Vec α) (eb : Mat α) (d : Nat)
    (hW : (W.headD []).length = d) (hb : b.length = d)
    (heb : ∀ q ∈ eb, q.length = d) :
    ∀ r ∈ layer_preactivation a W b eb, r.length = d := by
  intro r hr
  simp only [layer_preactivation, matAdd] at hr
  obtain ⟨i, hi, rfl⟩ := List.mem_iff_getElem.mp hr
  have hiA : i < (addRowBroadcast (np_dot a W) b).length := by
    simp only [List.length_zipWith] at hi; omega
  have hiE : i < eb.length := by
    simp only [List.length_zipWith] at hi; omega
  rw [List.getElem_zipWith, List.length_zipWith]
  have e2 : eb[i].length = d := heb _ (List.getElem_mem hiE)
  have hiD : i < (np_dot a W).length := by
    simpa [addRowBroadcast] using hiA
  have e1 : (addRowBroadcast (np_dot a W) b)[i].length = d := by
    simp only [addRowBroadcast, List.getElem_map, List.length_zipWith]
    have e0 : (np_dot a W)[i].length = d := by
      simp only [np_dot, List.getElem_map, List.length_map, List.length_range]
      exact hW
    rw [e0, hb]
    exact Nat.min_self d
  rw [e1, e2]
  exact Nat.min_self d

theorem getD_dropLast {γ : Type} (l : List γ) (i : Nat) (d : γ)
    (h : i < l.length - 1) : l.dropLast.getD i d = l.getD i d := by
  have h1 : i < l.dropLast.length := by
    simp only [List.length_dropLast]; omega
  have h2 : i < l.length := by omega
  rw [List.getD_eq_getElem?_getD, List.getElem?_eq_getElem h1,
    List.getD_eq_getElem?_getD, List.getElem?_eq_getElem h2]
  simp [List.getElem_dropLast]

theorem list_map_div_sum {F : Type} [LinearOrderedField F] (l : List F) (c : F) :
    (l.map (fun x => x / c)).sum = l.sum / c := by
  induction l with
  | nil => simp
  | cons a t ih => simp [ih, add_div]

/-- Each row of `s - logsumexp(s, axis=1)` has exponentials summing to 1. -/
theorem row_logsumexp_normalized (srow : Vec ℝ) (hne : srow ≠ []) :
    ((srow.map (fun x => x - logsumexp Real.exp Real.log srow)).map Real.exp).sum = 1 := by
  have hpos : 0 < (srow.map Real.exp).sum := by
    refine List.sum_pos _ ?_ ?_
    · intro a ha
      obtain ⟨x, _, rfl⟩ := List.mem_map.mp ha
      exact Real.exp_pos x
    · intro h
      exact hne (by simpa using h)
  rw [List.map_map]
  have hfun : (Real.exp ∘ fun x => x - logsumexp Real.exp Real.log srow) =
      fun x => Real.exp x / (srow.map Real.exp).sum := by
    funext x
    simp [Function.comp, logsumexp, Real.exp_sub, Real.exp_log hpos]
  rw [hfun]
  have hsplit : srow.map (fun x => Real.exp x / (srow.map Real.exp).sum) =
      (srow.map Real.exp).map (fun y => y / (srow.map Real.exp).sum) := by
    rw [List.map_map]
    rfl
  rw [hsplit, list_map_div_sum, div_self (ne_of_gt hpos)]

end Forward

/-- C6: given per-layer perturbation tensors, parameters and an input
batch, `neural_net_predict_and_activations` succeeds (for a non-empty
layer list), its returned log-probability rows are normalized (the
exponentials of each returned row sum to 1, i.e. each row's log-sum-exp is
0), and the returned activation list has one entry per layer: entry 0 is
the raw input batch, entry `i+1` is `tanh` of layer `i`'s pre-activation
on entry `i`, and the final layer's output activation is excluded.  The
embedding is a pure function, so the output is a deterministic function of
the inputs with no side effects. -/
theorem C6_predict_and_activations :
    (∀ (tanh : ℝ → ℝ) (extra_biases : List (Mat ℝ)) (params : List (Mat ℝ × Vec ℝ))
        (inputs : Mat ℝ),
      params ≠ [] → extra_biases.length = params.length →
      ∃ lp acts2,
        neural_net_predict_and_activations Real.exp Real.log tanh extra_biases params inputs
          = some (lp, acts2)) ∧
    (∀ (tanh : ℝ → ℝ) (extra_biases : List (Mat ℝ)) (params : List (Mat ℝ × Vec ℝ))
        (inputs : Mat ℝ) (d : Nat) (logprobs : Mat ℝ) (acts : List (Mat ℝ)),
      params ≠ [] →
      extra_biases.length = params.length →
      0 < d →
      ((params.getD (params.length - 1) ([], [])).1.headD []).length = d →
      (params.getD (params.length - 1) ([], [])).2.length = d →
      (∀ r ∈ extra_biases.getD (params.length - 1) [], r.length = d) →
      neural_net_predict_and_activations Real.exp Real.log tanh extra_biases params inputs
        = some (logprobs, acts) →
      (∀ row ∈ logprobs, (row.map Real.exp).sum = 1) ∧
      acts.length = params.length ∧
      acts.getD 0 [] = inputs ∧
      (∀ i, i + 1 < params.length →
        acts.getD (i + 1) [] =
          matMap tanh (layer_preactivation (acts.getD i [])
            (params.getD i ([], [])).1 (params.getD i ([], [])).2
            (extra_biases.getD i [])))) := by
  have hzip_ne : ∀ (extra_biases : List (Mat ℝ)) (params : List (Mat ℝ × Vec ℝ)),
      params ≠ [] → extra_biases.length = params.length → params.zip extra_biases ≠ [] := by
    intro eb params hp hlen
    cases params with
    | nil => exact absurd rfl hp
    | cons p pt =>
      cases eb with
      | nil => simp at hlen
      | cons e et => simp
  constructor
  · intro tanh eb params inputs hp hlen
    obtain ⟨s, hs⟩ := nn_go_snd_some tanh (params.zip eb) inputs (hzip_ne eb params hp hlen)
    have hsplit : nn_go tanh inputs (params.zip eb) =
        ((nn_go tanh inputs (params.zip eb)).1, some s) := by
      rw [← hs]
    refine ⟨s.map (fun r => r.map (fun x => x - logsumexp Real.exp Real.log r)),
      (inputs :: (nn_go tanh inputs (params.zip eb)).1).dropLast, ?_⟩
    unfold neural_net_predict_and_activations
    rw [hsplit]
  · intro tanh eb params inputs d lp acts hp hlen hd hW hb heb hnn
    obtain ⟨s, hs⟩ := nn_go_snd_some tanh (params.zip eb) inputs (hzip_ne eb params hp hlen)
    have hsplit : nn_go tanh inputs (params.zip eb) =
        ((nn_go tanh inputs (params.zip eb)).1, some s) := by
      rw [← hs]
    unfold neural_net_predict_and_activations at hnn
    rw [hsplit] at hnn
    have hnn2 : (some (s.map (fun r => r.map (fun x => x - logsumexp Real.exp Real.log r)),
        (inputs :: (nn_go tanh inputs (params.zip eb)).1).dropLast) :
        Option (Mat ℝ × List (Mat ℝ))) = some (lp, acts) := hnn
    have hpair := Option.some.inj hnn2
    have hlp : s.map (fun r => r.map (fun x => x - logsumexp Real.exp Real.log r)) = lp :=
      congrArg Prod.fst hpair
    have hacts : (inputs :: (nn_go tanh inputs (params.zip eb)).1).dropLast = acts :=
      congrArg Prod.snd hpair
    have hzlen : (params.zip eb).length = params.length := by
      rw [List.length_zip, hlen, Nat.min_self]
    have hgolen : (nn_go tanh inputs (params.zip eb)).1.length = params.length := by
      rw [nn_go_fst_length, hzlen]
    have hn1 : 1 ≤ params.length := by
      cases params with
      | nil => exact absurd rfl hp
      | cons p pt => simp
    have hidxlt : params.length - 1 < params.length := by omega
    have hlast := nn_go_last tanh (params.zip eb) inputs s hs
    rw [hzlen] at hlast
    have hzget : (params.zip eb).getD (params.length - 1) (([], []), []) =
        (params.getD (params.length - 1) ([], []), eb.getD (params.length - 1) []) :=
      getD_zip_lt params eb (params.length - 1) ([], []) [] hidxlt
        (by rw [hlen]; exact hidxlt)
    rw [hzget] at hlast
    have hsrows : ∀ r ∈ s, r.length = d := by
      rw [hlast]
      exact layer_preactivation_row_length _ _ _ _ d hW hb heb
    refine ⟨?_, ?_, ?_, ?_⟩
    · intro row hrow
      rw [← hlp] at hrow
      obtain ⟨srow, hsrow, rfl⟩ := List.mem_map.mp hrow
      refine row_logsumexp_normalized srow ?_
      intro h0
      have hl := hsrows srow hsrow
      rw [h0] at hl
      simp at hl
      omega
    · rw [← hacts]
      simp only [List.length_dropLast, List.length_cons, hgolen]
      omega
    · rw [← hacts, getD_dropLast _ 0 []
        (by simp only [List.length_cons, hgolen]; omega)]
      rfl
    · intro i hi
      rw [← hacts]
      rw [getD_dropLast _ (i + 1) []
          (by simp only [List.length_cons, hgolen]; omega),
        getD_dropLast _ i []
          (by simp only [List.length_cons, hgolen]; omega)]
      have hchain := nn_go_chain tanh (params.zip eb) inputs i (by rw [hzlen]; omega)
      rw [hchain]
      have hzgeti : (params.zip eb).getD i (([], []), []) =
          (params.getD i ([], []), eb.getD i []) :=
        getD_zip_lt params eb i ([], []) [] (by omega) (by rw [hlen]; omega)
      rw [hzgeti]

/-- Closed witness for C6: a one-layer net with `W = [[1]]`, `b = [0]`,
zero perturbation and input `[[0]]`. -/
theorem C6_predict_and_activations_witness :
    (∃ lp acts2,
      neural_net_predict_and_activations Real.exp Real.log (fun x : ℝ => x)
        [[[0]]] [([[1]], [0])] [[0]] = some (lp, acts2)) ∧
    ((∀ row ∈ ([[0]] : Mat ℝ), (row.map Real.exp).sum = 1) ∧
      ([[[0]]] : List (Mat ℝ)).length = ([([[1]], [0])] : List (Mat ℝ × Vec ℝ)).length ∧
      ([[[0]]] : List (Mat ℝ)).getD 0 [] = ([[0]] : Mat ℝ) ∧
      (∀ i, i + 1 < ([([[1]], [0])] : List (Mat ℝ × Vec ℝ)).length →
        ([[[0]]] : List (Mat ℝ)).getD (i + 1) [] =
          matMap (fun x : ℝ => x) (layer_preactivation (([[[0]]] : List (Mat ℝ)).getD i [])
            (([([[1]], [0])] : List (Mat ℝ × Vec ℝ)).getD i ([], [])).1
            (([([[1]], [0])] : List (Mat ℝ × Vec ℝ)).getD i ([], [])).2
            (([[[0]]] : List (Mat ℝ)).getD i [])))) :=
  ⟨C6_predict_and_activations.1 (fun x => x) [[[0]]] [([[1]], [0])] [[0]]
      (by simp) (by simp),
   C6_predict_and_activations.2 (fun x => x) [[[0]]] [([[1]], [0])] [[0]] 1 [[0]] [[[0]]]
      (by simp) (by simp) (by norm_num) (by simp [List.getD]) (by simp [List.getD])
      (by intro r hr
          simp [List.getD] at hr
          subst hr
          rfl)
      (by norm_num [neural_net_predict_and_activations, nn_go, layer_preactivation,
        matAdd, addRowBroadcast, np_dot, matMap, logsumexp, List.range_succ,
        Real.exp_zero, Real.log_one, List.getD])⟩

section Rowwise

variable {β : Type} [Zero β] [One β] [Add β] [Mul β] [Sub β]

/-- Modelled from the spec: `np.zeros((n, m))`. -/
def np_zeros (n m : Nat) : Mat β :=
  List.replicate n (List.replicate m (0 : β))

/-- The zero perturbation tensors built by
`collect_activations_and_grad_samples`:
`[np.zeros((inputs.shape[0], b.shape[0])) for W, b in params]`. -/
def zero_extra_biases (params : List (Mat β × Vec β)) (n : Nat) : List (Mat β) :=
  params.map (fun Wb => np_zeros n Wb.2.length)

/-- Derived row-wise form of one layer's pre-activation on a single
example row, with the zero perturbation row added. -/
def rowStep (W : Mat β) (b : Vec β) (r : Vec β) : Vec β :=
  List.zipWith (· + ·)
    (List.zipWith (· + ·)
      ((List.range (W.headD []).length).map
        (fun j => ((r.zip W).map (fun p => p.1 * p.2.getD j 0)).sum))
      b)
    (List.replicate b.length 0)

/-- Derived row-wise form of the last pre-activation of the layer loop on
a single example row. -/
def rowLastFun (tanh : β → β) : List (Mat β × Vec β) → Vec β → Vec β
  | [], r => r
  | [(W, b)], r => rowStep W b r
  | (W, b) :: q :: rest, r => rowLastFun tanh (q :: rest) ((rowStep W b r).map tanh)

/-- Derived per-example contribution to the sampled-target log-likelihood. -/
def rowContrib (exp log : β → β) (lt : β → β → Bool) (gv : β → β)
    (tanh : β → β) (params : List (Mat β × Vec β)) (D : Nat)
    (p : Vec β × β) : β :=
  let srow := rowLastFun tanh params p.1
  let lp := srow.map (fun x => x - logsumexp exp log srow)
  let probs := (lp.map gv).map exp
  let cumvals := np_cumsum probs
  let index := (cumvals.filter (fun c => lt c p.2)).length
  (List.zipWith (· * ·) lp ((np_eye (β := β) D).getD index [])).sum

theorem zip_map_self {γ δ : Type} (f : γ → δ) :
    ∀ l : List γ, l.zip (l.map f) = l.map (fun x => (x, f x)) := by
  intro l
  induction l with
  | nil => rfl
  | cons a t ih => simp [ih]

theorem zipWith_replicate_right {γ δ ε : Type} (f : γ → δ → ε) (x : δ) :
    ∀ (M : List γ) (n : Nat), M.length = n →
      List.zipWith f M (List.replicate n x) = M.map (fun r => f r x) := by
  intro M
  induction M with
  | nil => intro n _; simp
  | cons r t ih =>
    intro n h
    cases n with
    | zero => simp at h
    | succ n2 =>
      simp only [List.replicate, List.zipWith_cons_cons, List.map_cons]
      rw [ih n2 (by simpa using h)]

theorem zipWith_map_same {γ ε : Type} (h : ε → ε → ε) :
    ∀ (l : List γ) (F G : γ → ε),
      List.zipWith h (l.map F) (l.map G) = l.map (fun x => h (F x) (G x)) := by
  intro l
  induction l with
  | nil => intro F G; rfl
  | cons a t ih => intro F G; simp [ih]

omit [One β] [Sub β] in
theorem layer_preactivation_zero_rowwise (W : Mat β) (b : Vec β) (inputs : Mat β) :
    layer_preactivation inputs W b (np_zeros inputs.length b.length) =
      inputs.map (rowStep W b) := by
  unfold layer_preactivation np_dot addRowBroadcast matAdd np_zeros rowStep
  rw [List.map_map]
  rw [zipWith_replicate_right _ _ _ inputs.length (by simp)]
  rw [List.map_map]
  rfl

omit [One β] [Sub β] in
theorem nn_go_zero_last (tanh : β → β) :
    ∀ (params : List (Mat β × Vec β)) (a : Mat β) (n : Nat),
      a.length = n → params ≠ [] →
      (nn_go tanh a (params.zip (zero_extra_biases params n))).2 =
        some (a.map (rowLastFun tanh params)) := by
  intro params
  induction params with
  | nil => intro a n _ h; exact absurd rfl h
  | cons Wb rest ih =>
    intro a n hlen _
    obtain ⟨W, b⟩ := Wb
    have hzip : ((W, b) :: rest).zip (zero_extra_biases ((W, b) :: rest) n) =
        ((W, b), np_zeros n b.length) ::
          rest.zip (zero_extra_biases rest n) := by
      unfold zero_extra_biases
      rw [zip_map_self, zip_map_self]
      rfl
    rw [hzip, nn_go_cons]
    have hpre : layer_preactivation a W b (np_zeros n b.length) =
        a.map (rowStep W b) := by
      rw [← hlen]
      exact layer_preactivation_zero_rowwise W b a
    cases rest with
    | nil =>
      simp only [nn_go, Option.getD_none, Option.some.injEq]
      rw [hpre]
      rfl
    | cons q rest2 =>
      have hrec := ih (matMap tanh (layer_preactivation a W b (np_zeros n b.length)))
        n (by simp [matMap, layer_preactivation, matAdd, addRowBroadcast, np_dot, np_zeros,
          List.length_zipWith, hlen]) (by simp)
      rw [hrec]
      simp only [Option.getD_some, Option.some.injEq]
      rw [hpre]
      unfold matMap
      rw [List.map_map, List.map_map]
      rfl

omit [One β] [Sub β] in
theorem rowStep_length (W : Mat β) (b : Vec β) (r r2 : Vec β) :
    (rowStep W b r).length = (rowStep W b r2).length := by
  simp [rowStep, List.length_zipWith]

omit [One β] [Sub β] in
theorem rowLastFun_length_const (tanh : β → β) :
    ∀ (params : List (Mat β × Vec β)) (r r2 : Vec β), params ≠ [] →
      (rowLastFun tanh params r).length = (rowLastFun tanh params r2).length := by
  intro params
  induction params with
  | nil => intro r r2 h; exact absurd rfl h
  | cons Wb rest ih =>
    intro r r2 _
    obtain ⟨W, b⟩ := Wb
    cases rest with
    | nil => exact rowStep_length W b r r2
    | cons q rest2 => exact ih _ _ (by simp)

end Rowwise

section ScalarDecomposition

theorem map_zip_map_left {γ0 γ δ ε : Type} (G : γ0 → γ) (h : γ × δ → ε) :
    ∀ (l : List γ0) (us : List δ),
      ((l.map G).zip us).map h = (l.zip us).map (fun p => h (G p.1, p.2)) := by
  intro l us
  rw [List.zip_map_left, List.map_map]
  rfl

theorem zipWith_map_zip {γ0 γ ε ζ η : Type} (h : ε → ζ → η) (F : γ0 → ε)
    (T : γ0 × γ → ζ) :
    ∀ (l : List γ0) (us : List γ), us.length = l.length →
      List.zipWith h (l.map F) ((l.zip us).map T) =
        (l.zip us).map (fun p => h (F p.1) (T p)) := by
  intro l
  induction l with
  | nil => intro us _; simp
  | cons a t ih =>
    intro us hus
    cases us with
    | nil => simp at hus
    | cons u ut =>
      simp only [List.map_cons, List.zip_cons_cons, List.zipWith_cons_cons]
      rw [ih ut (by simpa using hus)]

variable {β : Type} [Zero β] [One β] [Add β] [Mul β] [Sub β]

omit [Sub β] in
theorem scalar_map_form (exp : β → β) (lt : β → β → Bool) (gv : β → β)
    (F : Vec β → Vec β) (inputs : Mat β) (us : Vec β) (D : Nat)
    (hus : us.length = inputs.length)
    (hD : ((matMap gv (inputs.map F)).headD []).length = D) :
    matSumAll (matMulElem (inputs.map F)
      (sample_discrete_from_log exp lt (matMap gv (inputs.map F)) us)) =
      ((inputs.zip us).map (fun p =>
        (List.zipWith (· * ·) (F p.1)
          ((np_eye (β := β) D).getD
            (((np_cumsum (((F p.1).map gv).map exp)).filter
              (fun c => lt c p.2)).length) [])).sum)).sum := by
  unfold sample_discrete_from_log
  rw [hD]
  have h1 : matMap gv (inputs.map F) = inputs.map (fun r => (F r).map gv) := by
    unfold matMap
    rw [List.map_map]
    rfl
  rw [h1]
  rw [map_zip_map_left]
  unfold matMulElem
  rw [zipWith_map_zip _ F _ inputs us hus]
  unfold matSumAll
  rw [List.map_map]
  rfl

/-- The sampled-target scalar decomposes as a sum of independent
per-example contributions when the perturbations are the zero tensors
built by `collect_activations_and_grad_samples`. -/
theorem model_predictive_rowwise (exp log tanh : β → β) (lt : β → β → Bool)
    (gv : β → β) (params : List (Mat β × Vec β)) (inputs : Mat β) (us : Vec β)
    (hp : params ≠ []) (hin : inputs ≠ []) (hus : us.length = inputs.length) :
    model_predictive_log_likelihood exp log tanh lt gv
      (zero_extra_biases params inputs.length) params inputs us =
      some (((inputs.zip us).map (rowContrib exp log lt gv tanh params
          ((rowLastFun tanh params (inputs.headD [])).length))).sum,
        (inputs ::
          (nn_go tanh inputs (params.zip (zero_extra_biases params inputs.length))).1).dropLast) := by
  have hs := nn_go_zero_last tanh params inputs inputs.length rfl hp
  have hsplit : nn_go tanh inputs (params.zip (zero_extra_biases params inputs.length)) =
      ((nn_go tanh inputs (params.zip (zero_extra_biases params inputs.length))).1,
        some (inputs.map (rowLastFun tanh params))) := by
    rw [← hs]
  have hmm : (inputs.map (rowLastFun tanh params)).map
      (fun r => r.map (fun x => x - logsumexp exp log r)) =
      inputs.map (fun r => (rowLastFun tanh params r).map
        (fun x => x - logsumexp exp log (rowLastFun tanh params r))) := by
    rw [List.map_map]
    rfl
  have hD : ((matMap gv (inputs.map (fun r => (rowLastFun tanh params r).map
      (fun x => x - logsumexp exp log (rowLastFun tanh params r))))).headD []).length =
      (rowLastFun tanh params (inputs.headD [])).length := by
    cases inputs with
    | nil => exact absurd rfl hin
    | cons r0 rt => simp [matMap]
  have hscalar := scalar_map_form exp lt gv
    (fun r => (rowLastFun tanh params r).map
      (fun x => x - logsumexp exp log (rowLastFun tanh params r)))
    inputs us ((rowLastFun tanh params (inputs.headD [])).length) hus hD
  unfold model_predictive_log_likelihood neural_net_predict_and_activations
  rw [hsplit]
  refine congrArg (fun z => some (z,
    (inputs :: (nn_go tanh inputs
      (params.zip (zero_extra_biases params inputs.length))).1).dropLast)) ?_
  rw [hmm, hscalar]
  rfl

end ScalarDecomposition

/-- C8 (amended): the sampled-target log-likelihood is invariant under any
per-example permutation of the batch PROVIDED the per-example uniform
draws are permuted along with the rows (the perturbation tensors are the
zero tensors built by `collect_activations_and_grad_samples`, which are
permutation-invariant).  With the draws kept in their fixed positional
order — as a fixed random seed produces them — the invariance fails; see
the counterexample. -/
theorem C8_batch_permutation_invariance :
    ∀ (f g t : ℝ → ℝ) (lt : ℝ → ℝ → Bool) (gv : ℝ → ℝ)
      (params : List (Mat ℝ × Vec ℝ)) (inputs inputs2 : Mat ℝ) (us us2 : Vec ℝ)
      (s1 s2 : ℝ) (a1 a2 : List (Mat ℝ)),
      params ≠ [] → inputs ≠ [] → inputs2 ≠ [] →
      us.length = inputs.length → us2.length = inputs2.length →
      (inputs.zip us).Perm (inputs2.zip us2) →
      model_predictive_log_likelihood f g t lt gv
        (zero_extra_biases params inputs.length) params inputs us = some (s1, a1) →
      model_predictive_log_likelihood f g t lt gv
        (zero_extra_biases params inputs2.length) params inputs2 us2 = some (s2, a2) →
      s1 = s2 := by
  intro f g t lt gv params inputs inputs2 us us2 s1 s2 a1 a2 hp hin hin2 hus hus2 hperm h1 h2
  rw [model_predictive_rowwise f g t lt gv params inputs us hp hin hus] at h1
  rw [model_predictive_rowwise f g t lt gv params inputs2 us2 hp hin2 hus2] at h2
  have hs1 : ((inputs.zip us).map (rowContrib f g lt gv t params
      ((rowLastFun t params (inputs.headD [])).length))).sum = s1 :=
    congrArg Prod.fst (Option.some.inj h1)
  have hs2 : ((inputs2.zip us2).map (rowContrib f g lt gv t params
      ((rowLastFun t params (inputs2.headD [])).length))).sum = s2 :=
    congrArg Prod.fst (Option.some.inj h2)
  have hD : (rowLastFun t params (inputs.headD [])).length =
      (rowLastFun t params (inputs2.headD [])).length :=
    rowLastFun_length_const t params _ _ hp
  rw [← hs1, ← hs2, hD]
  exact (hperm.map _).sum_eq

/-- Closed witness for the amended C8: a two-example batch and its swap,
with the draws swapped along; both runs yield the scalar `-2`, and the
equality of the two scalars is delivered by the invariance theorem. -/
theorem C8_batch_permutation_invariance_witness :
    model_predictive_log_likelihood (fun x : ℝ => x * x) (fun x => x) (fun x => x)
      (fun _ _ => false) (fun x => x)
      (zero_extra_biases [([[1, 0]], [0, 0])] ([[1], [2]] : Mat ℝ).length)
      [([[1, 0]], [0, 0])] [[1], [2]] [0, 0] = some (-2, [[[1], [2]]]) ∧
    model_predictive_log_likelihood (fun x : ℝ => x * x) (fun x => x) (fun x => x)
      (fun _ _ => false) (fun x => x)
      (zero_extra_biases [([[1, 0]], [0, 0])] ([[2], [1]] : Mat ℝ).length)
      [([[1, 0]], [0, 0])] [[2], [1]] [0, 0] = some (-2, [[[2], [1]]]) ∧
    (-2 : ℝ) = -2 := by
  have h1 : model_predictive_log_likelihood (fun x : ℝ => x * x) (fun x => x) (fun x => x)
      (fun _ _ => false) (fun x => x)
      (zero_extra_biases [([[1, 0]], [0, 0])] ([[1], [2]] : Mat ℝ).length)
      [([[1, 0]], [0, 0])] [[1], [2]] [0, 0] = some (-2, [[[1], [2]]]) := by
    norm_num [model_predictive_log_likelihood, neural_net_predict_and_activations,
      nn_go, layer_preactivation, matAdd, addRowBroadcast, np_dot, matMap,
      zero_extra_biases, np_zeros, logsumexp, sample_discrete_from_log, np_cumsum,
      cumsumFrom, np_eye, matMulElem, matSumAll, List.range_succ, List.getD,
      List.replicate_succ, List.replicate_zero]
  have h2 : model_predictive_log_likelihood (fun x : ℝ => x * x) (fun x => x) (fun x => x)
      (fun _ _ => false) (fun x => x)
      (zero_extra_biases [([[1, 0]], [0, 0])] ([[2], [1]] : Mat ℝ).length)
      [([[1, 0]], [0, 0])] [[2], [1]] [0, 0] = some (-2, [[[2], [1]]]) := by
    norm_num [model_predictive_log_likelihood, neural_net_predict_and_activations,
      nn_go, layer_preactivation, matAdd, addRowBroadcast, np_dot, matMap,
      zero_extra_biases, np_zeros, logsumexp, sample_discrete_from_log, np_cumsum,
      cumsumFrom, np_eye, matMulElem, matSumAll, List.range_succ, List.getD,
      List.replicate_succ, List.replicate_zero]
  refine ⟨h1, h2, ?_⟩
  exact C8_batch_permutation_invariance (fun x => x * x) (fun x => x) (fun x => x)
    (fun _ _ => false) (fun x => x) [([[1, 0]], [0, 0])]
    [[1], [2]] [[2], [1]] [0, 0] [0, 0] (-2) (-2) [[[1], [2]]] [[[2], [1]]]
    (by simp) (by simp) (by simp) (by simp) (by simp)
    (List.Perm.swap ([(2 : ℝ)], (0 : ℝ)) ([(1 : ℝ)], (0 : ℝ)) [])
    h1 h2

/-- C8 counterexample: with the random-number generator state fixed — the
positional draw sequence `[1/4, 19/20]` that `npr.rand` produces either
way — swapping the two examples of the batch changes the sampled targets
and hence the scalar log-likelihood: the original order yields
`log 9 - log 10 - log 2` while the swapped order yields
`-log 2 - log 10`, and these differ (by `log 9 ≠ 0`). -/
theorem C8_counterexample_fixed_seed :
    model_predictive_log_likelihood Real.exp Real.log (fun x : ℝ => x)
      (fun a b => decide (a < b)) (fun x => x)
      (zero_extra_biases [([[1, 0]], [0, 0])] 2) [([[1, 0]], [0, 0])]
      [[Real.log 9], [0]] [1 / 4, 19 / 20] =
      some (Real.log 9 - Real.log 10 - Real.log 2, [[[Real.log 9], [0]]]) ∧
    model_predictive_log_likelihood Real.exp Real.log (fun x : ℝ => x)
      (fun a b => decide (a < b)) (fun x => x)
      (zero_extra_biases [([[1, 0]], [0, 0])] 2) [([[1, 0]], [0, 0])]
      [[0], [Real.log 9]] [1 / 4, 19 / 20] =
      some (-Real.log 2 - Real.log 10, [[[0], [Real.log 9]]]) ∧
    Real.log 9 - Real.log 10 - Real.log 2 ≠ -Real.log 2 - Real.log 10 := by
  refine ⟨?_, ?_, ?_⟩
  · norm_num [model_predictive_log_likelihood, neural_net_predict_and_activations,
      nn_go, layer_preactivation, matAdd, addRowBroadcast, np_dot, matMap,
      zero_extra_biases, np_zeros, logsumexp, sample_discrete_from_log, np_cumsum,
      cumsumFrom, np_eye, matMulElem, matSumAll, List.range_succ, List.getD,
      List.replicate_succ, List.replicate_zero, List.filter_cons,
      Real.exp_sub, Real.exp_log, Real.exp_zero, Real.exp_neg]
    ring
  · norm_num [model_predictive_log_likelihood, neural_net_predict_and_activations,
      nn_go, layer_preactivation, matAdd, addRowBroadcast, np_dot, matMap,
      zero_extra_biases, np_zeros, logsumexp, sample_discrete_from_log, np_cumsum,
      cumsumFrom, np_eye, matMulElem, matSumAll, List.range_succ, List.getD,
      List.replicate_succ, List.replicate_zero, List.filter_cons,
      Real.exp_sub, Real.exp_log, Real.exp_zero, Real.exp_neg]
    ring
  · intro h
    have h9 : 0 < Real.log 9 := Real.log_pos (by norm_num)
    have : Real.log 9 = 0 := by linarith
    linarith

section DualNumbers

/-- A forward-mode dual number: a value together with the derivative of
that value with respect to a chosen scalar direction.  Modelled from the
spec: autograd's differentiation capability (not under `src/`) is rendered
as running the same pipeline on dual numbers. -/
structure DualNum (α : Type) where
  val : α
  der : α
deriving DecidableEq

variable {α : Type} [LinearOrderedField α]

instance : Zero (DualNum α) := ⟨⟨0, 0⟩⟩
instance : One (DualNum α) := ⟨⟨1, 0⟩⟩
instance : Add (DualNum α) := ⟨fun a b => ⟨a.val + b.val, a.der + b.der⟩⟩
instance : Sub (DualNum α) := ⟨fun a b => ⟨a.val - b.val, a.der - b.der⟩⟩
instance : Mul (DualNum α) := ⟨fun a b => ⟨a.val * b.val, a.val * b.der + a.der * b.val⟩⟩

/-- A constant dual number: no derivative. -/
def dconst (x : α) : DualNum α := ⟨x, 0⟩

/-- Forward-mode lift of a scalar primitive with derivative `f'`
(the chain rule `(f ∘ u)' = u' * f'(u)`): models `np.exp`, `np.log` and
`np.tanh` inside a differentiation trace. -/
def dlift (f fd : α → α) (d : DualNum α) : DualNum α :=
  ⟨f d.val, d.der * fd d.val⟩

/-- Modelled from the spec: `getval` / stop-gradient — read the value
while excluding it from the differentiation trace. -/
def getval (d : DualNum α) : DualNum α := ⟨d.val, 0⟩

/-- Comparisons inside the trace act on the primal values. -/
def dlt (lt : α → α → Bool) (a b : DualNum α) : Bool := lt a.val b.val

/-- Value projection of a dual matrix. -/
def valM (M : Mat (DualNum α)) : Mat α := M.map (List.map DualNum.val)

theorem dconst_add (x y : α) : dconst x + dconst y = dconst (x + y) := by
  show DualNum.mk (x + y) (0 + 0) = DualNum.mk (x + y) 0
  rw [add_zero]

theorem dlift_dconst (f fd : α → α) (x : α) :
    dlift f fd (dconst x) = dconst (f x) := by
  simp [dlift, dconst]

theorem cumsumFrom_dconst (l : List α) : ∀ acc : α,
    cumsumFrom (dconst acc) (l.map dconst) = (cumsumFrom acc l).map dconst := by
  induction l with
  | nil => intro acc; rfl
  | cons p t ih =>
    intro acc
    simp only [List.map_cons, cumsumFrom, dconst_add]
    rw [ih (acc + p)]

theorem np_eye_dconst (n : Nat) :
    np_eye (β := DualNum α) n = (np_eye (β := α) n).map (List.map dconst) := by
  unfold np_eye
  rw [List.map_map]
  refine List.map_congr_left (fun i _ => ?_)
  simp only [Function.comp, List.map_map]
  refine List.map_congr_left (fun j _ => ?_)
  simp only [Function.comp]
  by_cases h : i = j <;> simp [h, dconst]
  · rfl
  · rfl

theorem getD_map_list {γ δ : Type} (g : γ → δ) (l : List (List γ)) (i : Nat) :
    (l.map (List.map g)).getD i [] = (l.getD i []).map g := by
  by_cases h : i < l.length
  · rw [getD_map_lt _ [] [] l i h]
  · rw [List.getD_eq_default _ _ (by simpa using Nat.le_of_not_lt h),
      List.getD_eq_default _ _ (Nat.le_of_not_lt h)]
    rfl

/-- One row of the sampler commutes with the constant embedding: sampling
from constant (stop-gradient) log-probabilities yields constant one-hot
targets — no derivative flows through the sampled targets. -/
theorem sample_row_dconst (f : α → α) (fd : α → α) (lt : α → α → Bool)
    (row : Vec α) (u : DualNum α) (D : Nat) :
    (np_eye (β := DualNum α) D).getD
      (((np_cumsum ((row.map dconst).map (dlift f fd))).filter
        (fun c => dlt lt c u)).length) [] =
      ((np_eye (β := α) D).getD
        (((np_cumsum (row.map f)).filter (fun c => lt c u.val)).length) []).map dconst := by
  have h1 : (row.map dconst).map (dlift f fd) = (row.map f).map dconst := by
    rw [List.map_map, List.map_map]
    exact List.map_congr_left (fun x _ => dlift_dconst f fd x)
  rw [h1]
  have h2 : np_cumsum ((row.map f).map dconst) = (np_cumsum (row.map f)).map dconst := by
    unfold np_cumsum
    have : (dconst (0 : α)) = (0 : DualNum α) := rfl
    rw [← this, cumsumFrom_dconst]
  rw [h2]
  have h3 : ((np_cumsum (row.map f)).map dconst).filter (fun c => dlt lt c u) =
      ((np_cumsum (row.map f)).filter (fun c => lt c u.val)).map dconst := by
    rw [List.filter_map]
    rfl
  rw [h3, List.length_map, np_eye_dconst, getD_map_list]

end DualNumbers

section StopGradient

variable {α : Type} [LinearOrderedField α]

/-- Sampling from stop-gradient (constant) log-probabilities inside the
differentiation trace equals the primal sampling result embedded as
constants: the sampled one-hot targets carry no derivative. -/
theorem sample_discrete_dconst (f fd : α → α) (lt : α → α → Bool)
    (M : Mat α) (usD : Vec (DualNum α)) :
    sample_discrete_from_log (dlift f fd) (dlt lt) (M.map (List.map dconst)) usD =
      (sample_discrete_from_log f lt M (usD.map DualNum.val)).map (List.map dconst) := by
  unfold sample_discrete_from_log
  have hD : ((M.map (List.map dconst)).headD []).length = (M.headD []).length := by
    cases M <;> simp
  rw [hD]
  rw [map_zip_map_left]
  rw [List.zip_map_right, List.map_map, List.map_map]
  refine List.map_congr_left (fun p _ => ?_)
  exact sample_row_dconst f fd lt p.1 p.2 (M.headD []).length

/-- C7: the implemented sampled-target objective treats the model-sampled
targets as constants during differentiation.  Running
`model_predictive_log_likelihood` in a forward-mode differentiation trace
(dual numbers seeded through the injected perturbations, as
`grad_and_aux` does with respect to `extra_biases`), the returned dual
scalar — value AND derivative — coincides with that of
`sum(logprobs * targets)` where `targets` are the observed primal one-hot
samples embedded as constants; hence the gradient samples equal the
gradient of `sum(logprobs * targets)` with the targets held constant, and
no gradient propagates through the target-sampling step. -/
theorem C7_gradient_samples_stop_gradient :
    ∀ {α : Type} [LinearOrderedField α],
    ∀ (f fd g gd t td : α → α) (lt : α → α → Bool)
      (ebD : List (Mat (DualNum α))) (paramsD : List (Mat (DualNum α) × Vec (DualNum α)))
      (inputsD : Mat (DualNum α)) (usD : Vec (DualNum α))
      (scalarD : DualNum α) (actsD : List (Mat (DualNum α)))
      (lpD : Mat (DualNum α)) (actsD2 : List (Mat (DualNum α))),
      model_predictive_log_likelihood (dlift f fd) (dlift g gd) (dlift t td)
        (dlt lt) getval ebD paramsD inputsD usD = some (scalarD, actsD) →
      neural_net_predict_and_activations (dlift f fd) (dlift g gd) (dlift t td)
        ebD paramsD inputsD = some (lpD, actsD2) →
      scalarD = matSumAll (matMulElem lpD
        ((sample_discrete_from_log f lt (valM lpD) (usD.map DualNum.val)).map
          (List.map dconst))) ∧
      scalarD.der = (matSumAll (matMulElem lpD
        ((sample_discrete_from_log f lt (valM lpD) (usD.map DualNum.val)).map
          (List.map dconst)))).der := by
  intro α inst f fd g gd t td lt ebD paramsD inputsD usD scalarD actsD lpD actsD2 h1 h2
  unfold model_predictive_log_likelihood at h1
  rw [h2] at h1
  have h1x := Option.some.inj h1
  have hscalar : matSumAll (matMulElem lpD
      (sample_discrete_from_log (dlift f fd) (dlt lt) (matMap getval lpD) usD)) =
      scalarD := congrArg Prod.fst h1x
  have hgv : matMap getval lpD = (valM lpD).map (List.map dconst) := by
    unfold matMap valM
    rw [List.map_map]
    refine List.map_congr_left (fun r _ => ?_)
    simp only [Function.comp, List.map_map]
    rfl
  rw [hgv, sample_discrete_dconst] at hscalar
  exact ⟨hscalar.symm, congrArg DualNum.der hscalar.symm⟩

end StopGradient

section DualEval

variable {α : Type} [LinearOrderedField α]

theorem dual_zero_eq : (0 : DualNum α) = ⟨0, 0⟩ := rfl

theorem dual_one_eq : (1 : DualNum α) = ⟨1, 0⟩ := rfl

theorem dual_add_eq (a b : DualNum α) : a + b = ⟨a.val + b.val, a.der + b.der⟩ := rfl

theorem dual_sub_eq (a b : DualNum α) : a - b = ⟨a.val - b.val, a.der - b.der⟩ := rfl

theorem dual_mul_eq (a b : DualNum α) :
    a * b = ⟨a.val * b.val, a.val * b.der + a.der * b.val⟩ := rfl

theorem dual_val_zero : (0 : DualNum α).val = 0 := rfl

theorem dual_der_zero : (0 : DualNum α).der = 0 := rfl

theorem dual_val_one : (1 : DualNum α).val = 1 := rfl

theorem dual_der_one : (1 : DualNum α).der = 0 := rfl

end DualEval

/-- Closed witness for C7: a one-layer net over dual rationals with the
perturbation seeded in the derivative direction. -/
theorem C7_gradient_samples_stop_gradient_witness :
    ((⟨0, 0⟩ : DualNum ℚ) = matSumAll (matMulElem [[(⟨0, 0⟩ : DualNum ℚ)]]
      ((sample_discrete_from_log (fun x : ℚ => x) (fun a b => decide (a < b))
        (valM [[(⟨0, 0⟩ : DualNum ℚ)]])
        (([(⟨0, 0⟩ : DualNum ℚ)]).map DualNum.val)).map (List.map dconst)))) ∧
    ((⟨0, 0⟩ : DualNum ℚ).der = (matSumAll (matMulElem [[(⟨0, 0⟩ : DualNum ℚ)]]
      ((sample_discrete_from_log (fun x : ℚ => x) (fun a b => decide (a < b))
        (valM [[(⟨0, 0⟩ : DualNum ℚ)]])
        (([(⟨0, 0⟩ : DualNum ℚ)]).map DualNum.val)).map (List.map dconst)))).der) :=
  C7_gradient_samples_stop_gradient (fun x : ℚ => x) (fun _ : ℚ => 1)
    (fun x : ℚ => x) (fun _ : ℚ => 1) (fun x : ℚ => x) (fun _ : ℚ => 1)
    (fun a b => decide (a < b))
    [[[⟨0, 1⟩]]] [([[⟨1, 0⟩]], [⟨0, 0⟩])] [[⟨1, 0⟩]] [⟨0, 0⟩]
    ⟨0, 0⟩ [[[⟨1, 0⟩]]] [[⟨0, 0⟩]] [[[⟨1, 0⟩]]]
    (by norm_num [model_predictive_log_likelihood, neural_net_predict_and_activations,
      nn_go, layer_preactivation, matAdd, addRowBroadcast, np_dot, matMap,
      logsumexp, sample_discrete_from_log, np_cumsum, cumsumFrom, np_eye,
      matMulElem, matSumAll, List.range_succ, List.getD, List.filter_cons,
      dual_zero_eq, dual_one_eq, dual_add_eq, dual_sub_eq, dual_mul_eq,
      dual_val_zero, dual_der_zero, dual_val_one, dual_der_one,
      dlift, dlt, getval, dconst])
    (by norm_num [neural_net_predict_and_activations,
      nn_go, layer_preactivation, matAdd, addRowBroadcast, np_dot, matMap,
      logsumexp, List.range_succ, List.getD,
      dual_zero_eq, dual_one_eq, dual_add_eq, dual_sub_eq, dual_mul_eq,
      dual_val_zero, dual_der_zero, dual_val_one, dual_der_one,
      dlift, dlt, getval, dconst])
